import Mathlib

/-!
Verification of the schema-driven type resolver of `llama_mcp_adapter/adapter.py`
(the `TypeResolutionMixin` / `TypeCreationMixin` / `FieldExtractionMixin` /
`McpToolSpecAdapter` classes).

The Python code is shallowly embedded as a fuel-indexed interpreter `run` over
a JSON value model.  Python exceptions are modelled by `PyErr`; the mutable
adapter (its `properties_cache` and the created pydantic model classes) is
modelled by `AdapterState`, threaded explicitly.  Fuel exhaustion
(`PyErr.recursionError`) models Python's unbounded recursion / RecursionError.
Mirroring Python, an operation that raises still returns the state it mutated.
-/

mutual

/-- JSON values (the schema documents handled by the adapter).  Numbers are
modelled as integers; none of the adapter's control flow inspects numeric
values.  Arrays and objects carry their own list types so that equality is
structurally decidable. -/
inductive Json where
  | null : Json
  | bool (b : Bool) : Json
  | num (n : Int) : Json
  | str (s : String) : Json
  | arr (elems : JsonList) : Json
  | obj (fields : JsonObj) : Json
deriving DecidableEq

/-- A JSON array's element list. -/
inductive JsonList where
  | nil : JsonList
  | cons (hd : Json) (tl : JsonList) : JsonList
deriving DecidableEq

/-- A JSON object's key/value pairs, in insertion order (Python dicts are
ordered). -/
inductive JsonObj where
  | nil : JsonObj
  | cons (key : String) (val : Json) (tl : JsonObj) : JsonObj
deriving DecidableEq

end

/-- Build a JSON array from a Lean list. -/
def JsonList.ofList : List Json → JsonList
  | [] => .nil
  | x :: xs => .cons x (JsonList.ofList xs)

/-- The elements of a JSON array as a Lean list. -/
def JsonList.toList : JsonList → List Json
  | .nil => []
  | .cons x xs => x :: JsonList.toList xs

/-- Membership test on a JSON array (Python `in` on the values of a set built
from the array). -/
def JsonList.containsJ : JsonList → Json → Bool
  | .nil, _ => false
  | .cons x xs, v => x = v || JsonList.containsJ xs v

/-- Build a JSON object from a Lean list of key/value pairs. -/
def JsonObj.ofList : List (String × Json) → JsonObj
  | [] => .nil
  | (k, v) :: xs => .cons k v (JsonObj.ofList xs)

/-- The pairs of a JSON object as a Lean list. -/
def JsonObj.toList : JsonObj → List (String × Json)
  | .nil => []
  | .cons k v xs => (k, v) :: JsonObj.toList xs

/-- First-match lookup in a JSON object (Python `dict.get`: keys of a parsed
JSON object are unique, so first match is the match). -/
def JsonObj.get? : JsonObj → String → Option Json
  | .nil, _ => none
  | .cons k' v rest, k => if k' = k then some v else JsonObj.get? rest k

/-- Convenience constructor: an object literal from a list of pairs. -/
def Json.mkObj (kvs : List (String × Json)) : Json :=
  .obj (JsonObj.ofList kvs)

/-- Convenience constructor: an array literal from a list of values. -/
def Json.mkArr (elems : List Json) : Json :=
  .arr (JsonList.ofList elems)

/-- `schema.get(key)` on a JSON object; `none` for non-objects. -/
def Json.get? : Json → String → Option Json
  | .obj kvs, k => kvs.get? k
  | _, _ => none

/-- `key in schema` (Python membership test on a dict). -/
def Json.hasKey (j : Json) (k : String) : Bool :=
  (j.get? k).isSome

/-- First-match lookup in an association list. -/
def alistGet? {α : Type} : List (String × α) → String → Option α
  | [], _ => none
  | (k', v) :: rest, k => if k' = k then some v else alistGet? rest k

/-- Python `d[k] = v`: replace the binding in place if the key is present,
otherwise append (insertion order preserved). -/
def alistSet {α : Type} : List (String × α) → String → α → List (String × α)
  | [], k, v => [(k, v)]
  | (k', v') :: rest, k, v =>
    if k' = k then (k, v) :: rest else (k', v') :: alistSet rest k v

/-- Order-preserving first-occurrence deduplication (what `typing` does to the
arguments of `Literal[...]` and `Union[...]`). -/
def dedupAcc {α : Type} [DecidableEq α] (seen : List α) : List α → List α
  | [] => []
  | x :: xs => if seen.contains x then dedupAcc seen xs else x :: dedupAcc (x :: seen) xs

/-- Deduplicate a list keeping first occurrences. -/
def dedup {α : Type} [DecidableEq α] (l : List α) : List α :=
  dedupAcc [] l

mutual

/-- The Python `typing` objects the adapter produces as field annotations.
`listBare` / `dictBare` are the bare `List` / `Dict` of the adapter's
`json_type_mappings`; `model id` is a pydantic model class created by
`create_model`, identified by its allocation id (Python object identity). -/
inductive PyType where
  | str : PyType
  | int : PyType
  | float : PyType
  | bool : PyType
  | noneType : PyType
  | listBare : PyType
  | listOf (item : PyType) : PyType
  | dictBare : PyType
  | dictOf (value : PyType) : PyType
  | literal (vals : JsonList) : PyType
  | union (alts : PyTypeList) : PyType
  | model (id : Nat) : PyType
deriving DecidableEq

/-- The alternative list of a `Union[...]`. -/
inductive PyTypeList where
  | nil : PyTypeList
  | cons (hd : PyType) (tl : PyTypeList) : PyTypeList
deriving DecidableEq

end

/-- Build a union alternative list from a Lean list. -/
def PyTypeList.ofList : List PyType → PyTypeList
  | [] => .nil
  | t :: ts => .cons t (PyTypeList.ofList ts)

/-- The alternatives of a union as a Lean list. -/
def PyTypeList.toList : PyTypeList → List PyType
  | .nil => []
  | .cons t ts => t :: PyTypeList.toList ts

/-- The alternatives a type contributes to a `Union[...]` (Python flattens
nested unions when constructing a union). -/
def unionArgs : PyType → List PyType
  | .union ts => ts.toList
  | t => [t]

/-- `Union[tuple(ts)]` / `a | b` as `typing` builds it: flatten nested unions,
deduplicate keeping first occurrences, and collapse a singleton to its only
member. -/
def mkUnion (ts : List PyType) : PyType :=
  match dedup (ts.map unionArgs).flatten with
  | [t] => t
  | other => .union (PyTypeList.ofList other)

/-- `typing.Optional[t]`, which is by definition `Union[t, None]`. -/
def pyOptional (t : PyType) : PyType :=
  mkUnion [t, .noneType]

/-- The merged `json_type_mappings` of `McpToolSpecAdapter.__init__`: the
base `llama_index.tools.mcp.base.json_type_mapping` table (modelled from the
spec's fixed table: string→Text, integer→Integer, number→Real,
boolean→Boolean; the library is outside this repository) with `"array"` and
`"object"` overridden to the bare `List` / `Dict`. -/
def jsonTypeMappings : Json → Option PyType
  | .str "string" => some .str
  | .str "number" => some .float
  | .str "integer" => some .int
  | .str "boolean" => some .bool
  | .str "object" => some .dictBare
  | .str "array" => some .listBare
  | _ => none

/-- The characters after the last occurrence of `sep` in a character list
(`none` when `sep` does not occur). -/
def afterLastSep (sep : List Char) : List Char → Option (List Char)
  | [] => none
  | c :: rest =>
    match afterLastSep sep rest with
    | some t => some t
    | none =>
      if sep.isPrefixOf (c :: rest) then some ((c :: rest).drop sep.length) else none

/-- `_extract_ref_name`: `ref_path.split("#/$defs/")[-1]` — the substring
after the last occurrence of `"#/$defs/"`, or the whole path when the
separator does not occur. -/
def extractRefName (refPath : String) : String :=
  match afterLastSep "#/$defs/".data refPath.data with
  | some t => String.mk t
  | none => refPath

/-- `_is_simple_array`: `schema.get("type") == "array" and "items" in schema`. -/
def isSimpleArray (schema : Json) : Bool :=
  schema.get? "type" = some (.str "array") && schema.hasKey "items"

/-- `_is_simple_object`:
`schema.get("type") == "object" and "additionalProperties" in schema`. -/
def isSimpleObject (schema : Json) : Bool :=
  schema.get? "type" = some (.str "object") && schema.hasKey "additionalProperties"

/-- The default slot of a generated field: `...` (the Ellipsis sentinel,
"caller must supply a value") or a concrete default (`Json.null` is Python
`None`). -/
inductive PyDefault where
  | ellipsis : PyDefault
  | value (v : Json) : PyDefault
deriving DecidableEq

/-- `_set_field_default(field, required_fields, ftype, field_schema)`.
The required set holds the raw JSON values of the schema's `required` array
(Python compares the field name, a string, against them); a JSON `null`
default and an absent `default` key are both Python `None`. -/
def setFieldDefault (field : String) (requiredFields : JsonList)
    (ftype : PyType) (fieldSchema : Json) : PyDefault × PyType :=
  if requiredFields.containsJ (.str field) then (.ellipsis, ftype)
  else
    let defaultValue := (fieldSchema.get? "default").getD .null
    if defaultValue = .null then (.value .null, mkUnion [ftype, .noneType])
    else (.value defaultValue, ftype)

/-- One generated pydantic field: annotation, default slot and description
(`Field(default_value, description=field_schema.get("description", ""))`). -/
structure FieldDef where
  type : PyType
  default : PyDefault
  description : Json
deriving DecidableEq

/-- A pydantic model class produced by `create_model(model_name, **fields)`. -/
structure ModelDef where
  name : String
  fields : List (String × FieldDef)
deriving DecidableEq

/-- The mutable adapter: `properties_cache` maps a definition name to the id
of the created model class; `models` records every class created so far
(id, definition); `nextId` is the next allocation id. -/
structure AdapterState where
  propertiesCache : List (String × Nat)
  models : List (Nat × ModelDef)
  nextId : Nat
deriving DecidableEq

/-- A freshly constructed adapter (`__init__`: empty `properties_cache`). -/
def initState : AdapterState :=
  { propertiesCache := [], models := [], nextId := 0 }

/-- Python exceptions raised by the adapter's code paths.  `recursionError`
stands for fuel exhaustion (Python's unbounded recursion); `typeError` also
covers operations on values of an unexpected shape. -/
inductive PyErr where
  | keyError (name : String) : PyErr
  | indexError : PyErr
  | typeError : PyErr
  | recursionError : PyErr
deriving DecidableEq

/-- The adapter operations, one constructor per Python method (plus the three
interior loops: `unionOptions` for the `anyOf` comprehension in
`_resolve_union_type`, `fieldsLoop` for the property loop in
`_extract_fields`, `defsLoop` for the `$defs` loop in
`create_model_from_json_schema`). -/
inductive Op where
  | resolveFieldType (fieldSchema defs : Json)
  | resolveReference (fieldSchema defs : Json)
  | resolveUnionType (schema defs : Json)
  | unionOptions (options : JsonList) (defs : Json)
  | resolveUnionOption (option : Json) (defs : Json)
  | resolveBasicType (schema defs : Json)
  | createListType (schema defs : Json)
  | createDictType (schema defs : Json)
  | extractFields (schema defs : Json)
  | fieldsLoop (props : JsonObj) (required : JsonList)
      (defs : Json) (acc : List (String × FieldDef))
  | createModel (schema : Json) (modelName : String) (defs : Json)
  | defsLoop (entries : JsonObj) (defs : Json)
  | createModelTop (schema : Json) (modelName : String)

/-- The value an operation returns. -/
inductive Val where
  | ty (t : PyType)
  | tys (ts : List PyType)
  | fields (fs : List (String × FieldDef))
  | model (id : Nat)
  | unit
deriving DecidableEq

/-- `_get_properties(schema)`: for an enum schema, a single property keyed by
the schema's title (default `"enum_field"`) carrying the schema itself;
otherwise `schema.get("properties", {})`.  A non-string title or a non-object
`properties` value cannot become field names and is reported as a TypeError. -/
def getProperties (schema : Json) : Except PyErr JsonObj :=
  if schema.hasKey "enum" then
    match schema.get? "title" with
    | some (.str t) => .ok (.cons t schema .nil)
    | none => .ok (.cons "enum_field" schema .nil)
    | some _ => .error .typeError
  else
    match schema.get? "properties" with
    | some (.obj kvs) => .ok kvs
    | some _ => .error .typeError
    | none => .ok .nil

/-- The key of the synthetic enum property: `schema.get("title", "enum_field")`. -/
def enumTitleKey (schema : Json) : String :=
  match schema.get? "title" with
  | some (.str t) => t
  | _ => "enum_field"

/-- `set(schema.get("required", []))` — the raw values of the `required`
array (membership compares them against the field name string). -/
def requiredOf (schema : Json) : Except PyErr JsonList :=
  match schema.get? "required" with
  | some (.arr xs) => .ok xs
  | some _ => .error .typeError
  | none => .ok .nil

/-- The fuel-indexed interpreter for the adapter.  Each arm is the direct
transcription of the Python method of the same name; every nested call runs
at one less fuel, so `recursionError` appears exactly when the Python call
tree is deeper than the fuel.  Errors carry the state at raise time, as
Python's exceptions leave the adapter's mutations in place. -/
def run : Nat → Op → AdapterState → Except PyErr Val × AdapterState
  | 0, _, st => (.error .recursionError, st)
  | n + 1, op, st =>
    match op with
    | .resolveFieldType fieldSchema defs =>
      if fieldSchema.hasKey "$ref" then run n (.resolveReference fieldSchema defs) st
      else if fieldSchema.hasKey "enum" then
        match fieldSchema.get? "enum" with
        | some (.arr vals) => (.ok (.ty (.literal (JsonList.ofList (dedup vals.toList)))), st)
        | _ => (.error .typeError, st)
      else if fieldSchema.hasKey "anyOf" then run n (.resolveUnionType fieldSchema defs) st
      else run n (.resolveBasicType fieldSchema defs) st
    | .resolveReference fieldSchema defs =>
      match fieldSchema.get? "$ref" with
      | some (.str refPath) =>
        let refName := extractRefName refPath
        match defs.get? refName with
        | none =>
          -- `ref_name not in defs`: `properties_cache.get(ref_name) or
          -- self._create_model(defs[ref_name], ...)` — a cache hit
          -- short-circuits; otherwise `defs[ref_name]` raises KeyError.
          match alistGet? st.propertiesCache refName with
          | some mid => (.ok (.ty (.model mid)), st)
          | none => (.error (.keyError refName), st)
        | some refSchema =>
          if refSchema.hasKey "anyOf" then run n (.resolveUnionType refSchema defs) st
          else if isSimpleArray refSchema then run n (.createListType refSchema defs) st
          else if isSimpleObject refSchema then run n (.createDictType refSchema defs) st
          else
            match alistGet? st.propertiesCache refName with
            | some mid => (.ok (.ty (.model mid)), st)
            | none =>
              match run n (.createModel refSchema refName defs) st with
              | (.ok (.model mid), st1) => (.ok (.ty (.model mid)), st1)
              | (.ok _, st1) => (.error .typeError, st1)
              | (.error e, st1) => (.error e, st1)
      | some _ => (.error .typeError, st)
      | none => (.error (.keyError "$ref"), st)
    | .resolveUnionType schema defs =>
      match schema.get? "anyOf" with
      | some (.arr options) =>
        match run n (.unionOptions options defs) st with
        | (.ok (.tys ts), st1) =>
          if ts.length > 1 then (.ok (.ty (mkUnion ts)), st1)
          else
            match ts with
            | [] => (.error .indexError, st1)
            | t :: _ => (.ok (.ty t), st1)
        | (.ok _, st1) => (.error .typeError, st1)
        | (.error e, st1) => (.error e, st1)
      | some _ => (.error .typeError, st)
      | none => (.error (.keyError "anyOf"), st)
    | .unionOptions options defs =>
      match options with
      | .nil => (.ok (.tys []), st)
      | .cons o rest =>
        match run n (.resolveUnionOption o defs) st with
        | (.ok (.ty t), st1) =>
          match run n (.unionOptions rest defs) st1 with
          | (.ok (.tys ts), st2) => (.ok (.tys (t :: ts)), st2)
          | (.ok _, st2) => (.error .typeError, st2)
          | (.error e, st2) => (.error e, st2)
        | (.ok _, st1) => (.error .typeError, st1)
        | (.error e, st1) => (.error e, st1)
    | .resolveUnionOption option defs =>
      if option.hasKey "$ref" then run n (.resolveReference option defs) st
      else if option.get? "type" = some (.str "null") then (.ok (.ty .noneType), st)
      else run n (.resolveBasicType option defs) st
    | .resolveBasicType schema defs =>
      -- `json_type = schema.get("type", "string")`, then `json_type[0]` when
      -- it is a list (IndexError on an empty list, before the array/object
      -- checks, following the source order).
      match (schema.get? "type").getD (.str "string") with
      | .arr .nil => (.error .indexError, st)
      | jt0 =>
        let jt : Json := match jt0 with | .arr (.cons x _) => x | other => other
        if isSimpleArray schema then run n (.createListType schema defs) st
        else if isSimpleObject schema then run n (.createDictType schema defs) st
        else (.ok (.ty ((jsonTypeMappings jt).getD .str)), st)
    | .createListType schema defs =>
      match schema.get? "items" with
      | some item =>
        match run n (.resolveFieldType item defs) st with
        | (.ok (.ty t), st1) => (.ok (.ty (.listOf t)), st1)
        | (.ok _, st1) => (.error .typeError, st1)
        | (.error e, st1) => (.error e, st1)
      | none => (.error (.keyError "items"), st)
    | .createDictType schema defs =>
      match schema.get? "additionalProperties" with
      | some valueSchema =>
        match run n (.resolveFieldType valueSchema defs) st with
        | (.ok (.ty t), st1) => (.ok (.ty (.dictOf t)), st1)
        | (.ok _, st1) => (.error .typeError, st1)
        | (.error e, st1) => (.error e, st1)
      | none => (.error (.keyError "additionalProperties"), st)
    | .extractFields schema defs =>
      match getProperties schema with
      | .error e => (.error e, st)
      | .ok props =>
        match requiredOf schema with
        | .error e => (.error e, st)
        | .ok reqRaw =>
          -- "For enum schemas, treat them as required by default":
          -- `required_fields = {schema.get("title", "enum_field")}`.
          let requiredFields :=
            if schema.hasKey "enum" then JsonList.cons (.str (enumTitleKey schema)) .nil
            else reqRaw
          run n (.fieldsLoop props requiredFields defs []) st
    | .fieldsLoop props required defs acc =>
      match props with
      | .nil => (.ok (.fields acc), st)
      | .cons fieldName fieldSchema rest =>
        match run n (.resolveFieldType fieldSchema defs) st with
        | (.ok (.ty t), st1) =>
          let (defaultValue, finalType) := setFieldDefault fieldName required t fieldSchema
          let fd : FieldDef :=
            { type := finalType, default := defaultValue,
              description := (fieldSchema.get? "description").getD (.str "") }
          run n (.fieldsLoop rest required defs (alistSet acc fieldName fd)) st1
        | (.ok _, st1) => (.error .typeError, st1)
        | (.error e, st1) => (.error e, st1)
    | .createModel schema modelName defs =>
      match alistGet? st.propertiesCache modelName with
      | some mid => (.ok (.model mid), st)
      | none =>
        match run n (.extractFields schema defs) st with
        | (.ok (.fields fs), st1) =>
          -- `create_model(model_name, **fields)` then
          -- `self.properties_cache[model_name] = model` — the cache entry is
          -- written only after field extraction finished.
          let mid := st1.nextId
          (.ok (.model mid),
            { propertiesCache := alistSet st1.propertiesCache modelName mid,
              models := st1.models ++ [(mid, { name := modelName, fields := fs })],
              nextId := mid + 1 })
        | (.ok _, st1) => (.error .typeError, st1)
        | (.error e, st1) => (.error e, st1)
    | .defsLoop entries defs =>
      match entries with
      | .nil => (.ok .unit, st)
      | .cons clsName clsSchema rest =>
        match run n (.createModel clsSchema clsName defs) st with
        | (.ok (.model mid), st1) =>
          run n (.defsLoop rest defs)
            { st1 with propertiesCache := alistSet st1.propertiesCache clsName mid }
        | (.ok _, st1) => (.error .typeError, st1)
        | (.error e, st1) => (.error e, st1)
    | .createModelTop schema modelName =>
      -- `defs = schema.get("$defs", {})`; the per-definition loop; then the
      -- root record is built with the DEFAULT defs argument, i.e. `{}`.
      match (schema.get? "$defs").getD (.obj .nil) with
      | .obj entries =>
        match run n (.defsLoop entries (.obj entries)) st with
        | (.ok _, st1) => run n (.createModel schema modelName (.obj .nil)) st1
        | (.error e, st1) => (.error e, st1)
      | _ => (.error .typeError, st)

/-! ### Concrete schema inputs used by individual claims -/

/-- The `Node` definition of the spec's self-reference example:
`{"type":"object","properties":{"value":{"type":"integer"},
"next":{"$ref":"#/$defs/Node"}},"required":["value"]}`. -/
def nodeDef : Json :=
  .mkObj [("type", .str "object"),
          ("properties", .mkObj [("value", .mkObj [("type", .str "integer")]),
                                 ("next", .mkObj [("$ref", .str "#/$defs/Node")])]),
          ("required", .mkArr [.str "value"])]

/-- The definitions table `{"Node": nodeDef}` of the self-reference example. -/
def nodeDefs : Json :=
  .mkObj [("Node", nodeDef)]

/-- The self-reference example's top-level schema: `$defs` containing `Node`
and a root `$ref` to `Node`. -/
def nodeTop : Json :=
  .mkObj [("$defs", .mkObj [("Node", nodeDef)]), ("$ref", .str "#/$defs/Node")]

/-- `{"anyOf":[{"type":"string"},{"type":"null"}]}`. -/
def unionNullSchema : Json :=
  .mkObj [("anyOf", .mkArr [.mkObj [("type", .str "string")],
                            .mkObj [("type", .str "null")]])]

/-- The bare enum fragment `{"title":"Color","enum":["red","green","blue"]}`,
optionally extended with a `required` array (for the "regardless of any
required list" part of the enum-promotion claim). -/
def colorSchemaWith (req : Option JsonList) : Json :=
  match req with
  | none => .mkObj [("title", .str "Color"),
                    ("enum", .mkArr [.str "red", .str "green", .str "blue"])]
  | some r => .mkObj [("title", .str "Color"),
                      ("enum", .mkArr [.str "red", .str "green", .str "blue"]),
                      ("required", .arr r)]

/-- The one-field record the enum fragment is promoted to. -/
def colorModel : ModelDef :=
  { name := "Color",
    fields := [("Color",
      { type := .literal (.cons (.str "red") (.cons (.str "green") (.cons (.str "blue") .nil))),
        default := .ellipsis, description := .str "" })] }

/-- An object definition carrying BOTH `additionalProperties` and its own
`properties` (the tie-break input for reference inlining). -/
def mSchema : Json :=
  .mkObj [("type", .str "object"),
          ("additionalProperties", .mkObj [("type", .str "integer")]),
          ("properties", .mkObj [("x", .mkObj [("type", .str "string")])])]

/-- A definitions table binding `M` to `mSchema`. -/
def mixedDefs : Json :=
  .mkObj [("M", mSchema)]

/-- Whether a resolved annotation is a created record class. -/
def isModelType : PyType → Bool
  | .model _ => true
  | _ => false

/-- A union alternative carrying both an `enum` marker and `"type":"null"`. -/
def nullEnumOption : Json :=
  .mkObj [("enum", .mkArr [.str "a"]), ("type", .str "null")]

/-- A top-level schema whose `$defs` contains an entry named exactly like the
root model (`DynamicModel`), with a shape different from the root's. -/
def collidingTop : Json :=
  .mkObj [("$defs", .mkObj [("DynamicModel",
    .mkObj [("type", .str "object"),
            ("properties", .mkObj [("a", .mkObj [("type", .str "integer")])]),
            ("required", .mkArr [.str "a"])])])]

/-! ### Well-formed schema descriptions (for the acyclic-schema claim)

A `FragDesc` is a schema fragment built from the shapes the resolver
understands; `toJson` erases it to the JSON document the adapter consumes.
A definitions list is *acyclic* when some rank function strictly decreases
along every `$ref`: such a function exists exactly when the reference graph
has no cycles, and no constraint is placed on declaration order, so the list
may contain forward references. -/

mutual

/-- Schema fragments: primitive kind, array-of, open map, enum (with title),
union, object (with properties and required list), or a `$ref` by name. -/
inductive FragDesc where
  | basic (tyName : String) : FragDesc
  | arrayOf (item : FragDesc) : FragDesc
  | mapOf (value : FragDesc) : FragDesc
  | enumOf (title : String) (vals : JsonList) : FragDesc
  | unionOf (first : FragDesc) (rest : FragList) : FragDesc
  | objectOf (props : PropList) (required : JsonList) : FragDesc
  | ref (name : String) : FragDesc

/-- A list of union alternatives. -/
inductive FragList where
  | nil : FragList
  | cons (hd : FragDesc) (tl : FragList) : FragList

/-- A list of named properties. -/
inductive PropList where
  | nil : PropList
  | cons (name : String) (frag : FragDesc) (tl : PropList) : PropList

end

mutual

/-- Erase a fragment description to the JSON schema fragment it denotes. -/
def FragDesc.toJson : FragDesc → Json
  | .basic t => .obj (.cons "type" (.str t) .nil)
  | .arrayOf f => .obj (.cons "type" (.str "array") (.cons "items" f.toJson .nil))
  | .mapOf f =>
      .obj (.cons "type" (.str "object") (.cons "additionalProperties" f.toJson .nil))
  | .enumOf title vals => .obj (.cons "title" (.str title) (.cons "enum" (.arr vals) .nil))
  | .unionOf o rest => .obj (.cons "anyOf" (.arr (.cons o.toJson rest.toJsons)) .nil)
  | .objectOf props req =>
      .obj (.cons "type" (.str "object")
        (.cons "properties" (.obj props.toJson) (.cons "required" (.arr req) .nil)))
  | .ref name => .obj (.cons "$ref" (.str ("#/$defs/" ++ name)) .nil)

/-- Erase a list of union alternatives. -/
def FragList.toJsons : FragList → JsonList
  | .nil => .nil
  | .cons f fs => .cons f.toJson fs.toJsons

/-- Erase a property list. -/
def PropList.toJson : PropList → JsonObj
  | .nil => .nil
  | .cons nm f ps => .cons nm f.toJson ps.toJson

end

mutual

/-- Structural size of a fragment (for induction). -/
def FragDesc.fsize : FragDesc → Nat
  | .basic _ => 1
  | .arrayOf f => f.fsize + 1
  | .mapOf f => f.fsize + 1
  | .enumOf _ _ => 1
  | .unionOf o rest => o.fsize + rest.fsize + 1
  | .objectOf props _ => props.fsize + 1
  | .ref _ => 1

/-- Structural size of an alternative list. -/
def FragList.fsize : FragList → Nat
  | .nil => 0
  | .cons f fs => f.fsize + fs.fsize + 1

/-- Structural size of a property list. -/
def PropList.fsize : PropList → Nat
  | .nil => 0
  | .cons _ f ps => f.fsize + ps.fsize + 1

end

mutual

/-- All `$ref` names of the fragment lie in `allowed`. -/
def FragDesc.scopedTo (allowed : List String) : FragDesc → Bool
  | .basic _ => true
  | .arrayOf f => f.scopedTo allowed
  | .mapOf f => f.scopedTo allowed
  | .enumOf _ _ => true
  | .unionOf o rest => o.scopedTo allowed && rest.scopedTo allowed
  | .objectOf props _ => props.scopedTo allowed
  | .ref name => allowed.contains name

/-- All `$ref` names of the alternatives lie in `allowed`. -/
def FragList.scopedTo (allowed : List String) : FragList → Bool
  | .nil => true
  | .cons f fs => f.scopedTo allowed && fs.scopedTo allowed

/-- All `$ref` names of the properties lie in `allowed`. -/
def PropList.scopedTo (allowed : List String) : PropList → Bool
  | .nil => true
  | .cons _ f ps => f.scopedTo allowed && ps.scopedTo allowed

end

/-- The elements of an alternative list. -/
def FragList.toList : FragList → List FragDesc
  | .nil => []
  | .cons f fs => f :: fs.toList

/-- The elements of a property list. -/
def PropList.toList : PropList → List (String × FragDesc)
  | .nil => []
  | .cons nm f ps => (nm, f) :: ps.toList

/-- Whether `sep` occurs as a contiguous sublist. -/
def hasSub (sep : List Char) : List Char → Bool
  | [] => false
  | c :: rest => sep.isPrefixOf (c :: rest) || hasSub sep rest

/-- A definition name that does not itself contain the `#/$defs/` separator,
so that `_extract_ref_name` recovers it from `#/$defs/<name>` unchanged. -/
def cleanName (nm : String) : Bool :=
  !hasSub "#/$defs/".data nm.data

/-- The declared names of a definitions list, in order. -/
def defNames (D : List (String × FragDesc)) : List String :=
  D.map Prod.fst

/-- Erase a definitions list to the `$defs` JSON object. -/
def defsToJson : List (String × FragDesc) → JsonObj
  | [] => .nil
  | (nm, f) :: rest => .cons nm f.toJson (defsToJson rest)

/-- The top-level schema document: the root fragment's own keys plus the
`$defs` table. -/
def topJson (D : List (String × FragDesc)) (root : FragDesc) : Json :=
  match root.toJson with
  | .obj o => .obj (.cons "$defs" (.obj (defsToJson D)) o)
  | j => j

/-- The cache contents after building records for `nms` with ids counting up
from `a`. -/
def withIds : List String → Nat → List (String × Nat)
  | [], _ => []
  | nm :: rest, a => (nm, a) :: withIds rest (a + 1)

mutual

/-- Every `$ref` name of the fragment has rank strictly below `r`. -/
def FragDesc.rankedBelow (rank : String → Nat) (r : Nat) : FragDesc → Bool
  | .basic _ => true
  | .arrayOf f => f.rankedBelow rank r
  | .mapOf f => f.rankedBelow rank r
  | .enumOf _ _ => true
  | .unionOf o rest => o.rankedBelow rank r && rest.rankedBelow rank r
  | .objectOf props _ => props.rankedBelow rank r
  | .ref name => decide (rank name < r)

/-- Every `$ref` name of the alternatives has rank strictly below `r`. -/
def FragList.rankedBelow (rank : String → Nat) (r : Nat) : FragList → Bool
  | .nil => true
  | .cons f fs => f.rankedBelow rank r && fs.rankedBelow rank r

/-- Every `$ref` name of the properties has rank strictly below `r`. -/
def PropList.rankedBelow (rank : String → Nat) (r : Nat) : PropList → Bool
  | .nil => true
  | .cons _ f ps => f.rankedBelow rank r && ps.rankedBelow rank r

end

/-- Acyclicity of the `$ref` graph of `D`, witnessed by `rank`: every
definition's references have strictly smaller rank than the definition
itself.  Such a rank function exists exactly when the reference graph has no
cycles; declaration order is unconstrained, so forward references are
allowed (the adapter builds them on demand inside `_resolve_reference`). -/
def acyclicBy (rank : String → Nat) (D : List (String × FragDesc)) : Bool :=
  D.all fun p => FragDesc.rankedBelow rank (rank p.1) p.2

/-- Every definition's fragment refers only to defined names. -/
def allScoped (D : List (String × FragDesc)) : Bool :=
  D.all fun p => FragDesc.scopedTo (defNames D) p.2

/-- The adapter state in which exactly the records named by `L` have been
built, in allocation order: the cache maps the `i`-th name of `L` to id `i`,
`M` is the record list, and the next free id is `L.length`. -/
def builtState (L : List String) (M : List (Nat × ModelDef)) : AdapterState :=
  ⟨withIds L 0, M, L.length⟩

/-- A coherent build list for `D`: pairwise-distinct names, all of them
defined in `D`, one record per built name. -/
def GoodL (D : List (String × FragDesc)) (L : List String)
    (M : List (Nat × ModelDef)) : Prop :=
  L.Nodup ∧ (∀ x ∈ L, x ∈ defNames D) ∧ M.length = L.length

/-- Resolution of `j` by operation `op` under definitions `D` succeeds from
the built state of `L`, extending it by `Lnew`: the definitions built on
demand during resolution, all defined in `D` and of rank strictly below
`R`. -/
def ResolvesTo (D : List (String × FragDesc)) (rank : String → Nat) (R : Nat)
    (op : Json → Json → Op) (j : Json) (L : List String)
    (M : List (Nat × ModelDef)) : Prop :=
  ∃ n t Lnew M',
    run n (op j (.obj (defsToJson D))) (builtState L M)
      = (.ok (.ty t), builtState (L ++ Lnew) M')
    ∧ (L ++ Lnew).Nodup ∧ (∀ x ∈ Lnew, x ∈ defNames D ∧ rank x < R)
    ∧ M'.length = (L ++ Lnew).length

/-- A definitions table with a FORWARD reference: `B`, declared first,
refers to `A`, declared after it; `C` and `U` also refer to `A`.  The list
is not topologically ordered, but its reference graph is acyclic. -/
def exD2 : List (String × FragDesc) :=
  [("B", .objectOf (.cons "a" (.ref "A") .nil) .nil),
   ("A", .objectOf (.cons "x" (.basic "integer") .nil) (.cons (.str "x") .nil)),
   ("C", .arrayOf (.ref "A")),
   ("U", .unionOf (.ref "A") (.cons (.basic "null") .nil))]

/-- A rank function witnessing the acyclicity of `exD2`. -/
def exRank (nm : String) : Nat :=
  if nm = "A" then 0 else 1

/-- A root fragment referring to `exD2`'s definitions. -/
def exRoot2 : FragDesc :=
  .objectOf (.cons "b" (.ref "B") (.cons "c" (.ref "C") (.cons "u" (.ref "U") .nil))) .nil




/-- C2: a `$ref` whose extracted name is in neither the definitions table nor
the cache fails with a KeyError carrying that name, and the state (hence the
set of built records) is unchanged — the error aborts the call. -/
theorem c2_unknown_reference (fuel : Nat) (fieldSchema defs : Json)
    (st : AdapterState) (refPath : String)
    (href : fieldSchema.get? "$ref" = some (.str refPath))
    (hdefs : defs.get? (extractRefName refPath) = none)
    (hcache : alistGet? st.propertiesCache (extractRefName refPath) = none) :
    run (fuel + 2) (.resolveFieldType fieldSchema defs) st
      = (.error (.keyError (extractRefName refPath)), st) := by
  have hk : fieldSchema.hasKey "$ref" = true := by
    simp [Json.hasKey, href]
  simp [run, hk, href, hdefs, hcache]

theorem c2_witness :
    run 2 (.resolveFieldType (.mkObj [("$ref", .str "#/$defs/Missing")]) (.obj .nil)) initState
      = (.error (.keyError "Missing"), initState) :=
  c2_unknown_reference 0 _ _ _ "#/$defs/Missing" rfl rfl rfl

/-- C3 counterexample: a non-required field with declared non-null default
keeps its bare resolved type — it is NOT wrapped as Optional. -/
theorem c3_counterexample :
    setFieldDefault "f" .nil .str (.mkObj [("default", .str "x")])
        = (.value (.str "x"), .str)
      ∧ PyType.str ≠ pyOptional .str := by
  constructor
  · rfl
  · simp [pyOptional, mkUnion, dedup, dedupAcc, unionArgs]

/-- C3 (amended): a required field keeps its type with the no-default
sentinel; a non-required field is wrapped as Optional with the absence value
as default only when the schema declares no default (or a null default);
with a declared non-null default it keeps its bare type and that default. -/
theorem c3_amended (field : String) (required : JsonList) (ftype : PyType)
    (fieldSchema : Json) :
    (required.containsJ (.str field) = true →
        setFieldDefault field required ftype fieldSchema = (.ellipsis, ftype))
    ∧ (required.containsJ (.str field) = false →
        ((fieldSchema.get? "default").getD .null = .null →
            setFieldDefault field required ftype fieldSchema
              = (.value .null, pyOptional ftype))
        ∧ (∀ dv, (fieldSchema.get? "default").getD .null = dv → dv ≠ .null →
            setFieldDefault field required ftype fieldSchema = (.value dv, ftype))) := by
  refine ⟨fun hreq => ?_, fun hreq => ⟨fun hdv => ?_, fun dv hdv hne => ?_⟩⟩
  · simp [setFieldDefault, hreq]
  · simp [setFieldDefault, hreq, hdv, pyOptional]
  · simp [setFieldDefault, hreq, hdv, hne]

theorem c3_amended_witness :
    setFieldDefault "f" .nil .int (.obj .nil) = (.value .null, pyOptional .int) :=
  ((c3_amended "f" .nil .int (.obj .nil)).2 rfl).1 rfl

/-- C5: building a record for the bare enum fragment
`{"title":"Color","enum":["red","green","blue"]}` yields a record named
`Color` with exactly one field, itself named `Color`, whose annotation is the
literal set `{red,green,blue}`, marked required (the no-default sentinel) —
whether the fragment carries no `required` array at all or an arbitrary one. -/
theorem c5_enum_promotion :
    (run 5 (.createModel (colorSchemaWith none) "Color" (.obj .nil)) initState
        = (.ok (.model 0), ⟨[("Color", 0)], [(0, colorModel)], 1⟩))
    ∧ ∀ req : JsonList,
        run 5 (.createModel (colorSchemaWith (some req)) "Color" (.obj .nil)) initState
          = (.ok (.model 0), ⟨[("Color", 0)], [(0, colorModel)], 1⟩) := by
  constructor
  · rfl
  · intro req; rfl

/-- C6: `{"anyOf":[{"type":"string"},{"type":"null"}]}` resolves to
`Optional[str]` (which in `typing` IS the union with `None`, displayed as
`Optional`), and a union with exactly one alternative resolves to exactly
that alternative's resolved type — no singleton union is built. -/
theorem c6_union_collapse :
    (run 5 (.resolveFieldType unionNullSchema (.obj .nil)) initState
        = (.ok (.ty (pyOptional .str)), initState))
    ∧ ∀ (fuel : Nat) (schema defs o : Json) (st st' : AdapterState) (t : PyType),
        schema.get? "anyOf" = some (.arr (.cons o .nil)) →
        run (fuel + 1) (.resolveUnionOption o defs) st = (.ok (.ty t), st') →
        run (fuel + 3) (.resolveUnionType schema defs) st = (.ok (.ty t), st') := by
  constructor
  · rfl
  · intro fuel schema defs o st st' t hany hopt
    simp only [run, hany] at hopt ⊢
    rw [hopt]
    rfl

theorem c6_witness :
    run 4 (.resolveUnionType (.mkObj [("anyOf", .mkArr [.mkObj [("type", .str "integer")]])])
        (.obj .nil)) initState
      = (.ok (.ty .int), initState) :=
  c6_union_collapse.2 1 _ _ (.mkObj [("type", .str "integer")]) initState initState .int rfl rfl

/-- C10: a fragment without `$ref`, `enum` or `anyOf` whose `type` is a
non-empty list of kind names resolves to the mapping of the FIRST kind alone
(defaulting to `str`); the remaining kinds, and everything else in the
fragment, are ignored, and the state is untouched. -/
theorem c10_type_list_first (fuel : Nat) (frag defs : Json) (st : AdapterState)
    (k : Json) (rest : JsonList)
    (h1 : frag.hasKey "$ref" = false) (h2 : frag.hasKey "enum" = false)
    (h3 : frag.hasKey "anyOf" = false)
    (h4 : frag.get? "type" = some (.arr (.cons k rest))) :
    run (fuel + 2) (.resolveFieldType frag defs) st
      = (.ok (.ty ((jsonTypeMappings k).getD .str)), st) := by
  simp [run, h1, h2, h3, h4, isSimpleArray, isSimpleObject]

theorem c10_witness :
    run 2 (.resolveFieldType
        (.mkObj [("type", .mkArr [.str "integer", .str "string"]),
                 ("items", .mkObj [("type", .str "boolean")])]) (.obj .nil)) initState
      = (.ok (.ty .int), initState) :=
  c10_type_list_first 0 _ _ initState (.str "integer") (.cons (.str "string") .nil)
    rfl rfl rfl rfl

lemma jsonTypeMappings_not_literal (j : Json) (vs : JsonList) :
    (jsonTypeMappings j).getD .str ≠ .literal vs := by
  unfold jsonTypeMappings
  split <;> simp

lemma createListType_shape (n : Nat) (s d : Json) (st : AdapterState)
    (v : Val) (st' : AdapterState) (h : run n (.createListType s d) st = (.ok v, st')) :
    ∃ t0, v = .ty (.listOf t0) := by
  match n with
  | 0 => exact absurd h (by simp [run])
  | n + 1 =>
    simp only [run] at h
    split at h
    · split at h <;> simp_all
      exact ⟨_, h.1.symm⟩
    · simp_all

lemma createDictType_shape (n : Nat) (s d : Json) (st : AdapterState)
    (v : Val) (st' : AdapterState) (h : run n (.createDictType s d) st = (.ok v, st')) :
    ∃ t0, v = .ty (.dictOf t0) := by
  match n with
  | 0 => exact absurd h (by simp [run])
  | n + 1 =>
    simp only [run] at h
    split at h
    · split at h <;> simp_all
      exact ⟨_, h.1.symm⟩
    · simp_all

lemma resolveBasicType_not_literal (n : Nat) (s d : Json) (st : AdapterState)
    (v : Val) (st' : AdapterState) (h : run n (.resolveBasicType s d) st = (.ok v, st'))
    (vs : JsonList) : v ≠ .ty (.literal vs) := by
  match n with
  | 0 => exact absurd h (by simp [run])
  | n + 1 =>
    simp only [run] at h
    split at h
    · simp_all
    · split at h
      · obtain ⟨t0, rfl⟩ := createListType_shape _ _ _ _ _ _ h
        simp
      · split at h
        · obtain ⟨t0, rfl⟩ := createDictType_shape _ _ _ _ _ _ h
          simp
        · simp only [Prod.mk.injEq, Except.ok.injEq] at h
          obtain ⟨h1, -⟩ := h
          subst h1
          intro heq
          injection heq with h3
          exact jsonTypeMappings_not_literal _ vs h3

/-- C9 counterexample: the union alternative `{"enum":["a"],"type":"null"}`
(an enum marker, no `$ref`) is NOT resolved through the basic
primitive-kind path — that path would yield `str` — but through the
null-type check, yielding `NoneType`. -/
theorem c9_counterexample :
    run 5 (.resolveUnionOption nullEnumOption (.obj .nil)) initState
        = (.ok (.ty .noneType), initState)
    ∧ run 5 (.resolveBasicType nullEnumOption (.obj .nil)) initState
        = (.ok (.ty .str), initState)
    ∧ PyType.noneType ≠ .str :=
  ⟨rfl, rfl, by decide⟩

/-- C9 (amended): a union alternative carrying an enum marker but no `$ref`
resolves through the basic primitive-kind path — which falls back to `str`
when no type is declared — UNLESS its declared type is exactly `"null"`, in
which case it resolves to the absence type; in no case does the enum
dispatch apply: the result is never a Literal set. -/
theorem c9_amended (fuel : Nat) (option defs : Json) (st : AdapterState)
    (href : option.hasKey "$ref" = false) (henum : option.hasKey "enum" = true) :
    (option.get? "type" = some (.str "null") →
        run (fuel + 1) (.resolveUnionOption option defs) st = (.ok (.ty .noneType), st))
    ∧ (option.get? "type" ≠ some (.str "null") →
        run (fuel + 1) (.resolveUnionOption option defs) st
          = run fuel (.resolveBasicType option defs) st)
    ∧ (option.get? "type" = none →
        run (fuel + 2) (.resolveBasicType option defs) st = (.ok (.ty .str), st))
    ∧ (∀ v st', run (fuel + 1) (.resolveUnionOption option defs) st = (.ok v, st') →
        ∀ vs, v ≠ .ty (.literal vs)) := by
  refine ⟨fun hnull => ?_, fun hnn => ?_, fun hno => ?_, fun v st' hok vs => ?_⟩
  · simp [run, href, hnull]
  · simp [run, href, hnn]
  · simp [run, hno, isSimpleArray, isSimpleObject, jsonTypeMappings]
  · by_cases hnull : option.get? "type" = some (.str "null")
    · simp only [run, href, Bool.false_eq_true, if_false, hnull, if_true] at hok
      simp only [Prod.mk.injEq, Except.ok.injEq] at hok
      obtain ⟨h1, -⟩ := hok
      subst h1
      simp
    · simp only [run, href, Bool.false_eq_true, if_false, hnull, if_true] at hok
      exact resolveBasicType_not_literal _ _ _ _ _ _ hok vs

theorem c9_amended_witness :
    run 3 (.resolveUnionOption (.mkObj [("enum", .mkArr [.str "a"])]) (.obj .nil)) initState
      = run 2 (.resolveBasicType (.mkObj [("enum", .mkArr [.str "a"])]) (.obj .nil)) initState :=
  (c9_amended 2 (.mkObj [("enum", .mkArr [.str "a"])]) (.obj .nil) initState rfl rfl).2.1
    (by decide)

/-- C4 counterexample: the definition `M` has `additionalProperties` AND its
own `properties`, so by the claim it is not a "pure container" and a `$ref`
to it should resolve to a Record; the code instead resolves it inline to
`Dict[str, int]`. -/
theorem c4_counterexample :
    run 5 (.resolveFieldType (.mkObj [("$ref", .str "#/$defs/M")]) mixedDefs) initState
        = (.ok (.ty (.dictOf .int)), initState)
    ∧ (mixedDefs.get? "M") = some mSchema
    ∧ mSchema.hasKey "properties" = true
    ∧ isModelType (.dictOf .int) = false :=
  ⟨rfl, rfl, rfl, rfl⟩

/-- C4 (amended): a `$ref` naming a known definition dispatches on the
definition's shape: an `anyOf` definition resolves as that union; an
array-with-`items` or object-with-`additionalProperties` definition —
regardless of whether it also declares `properties` of its own — resolves
inline as the List/Dict type; any other definition resolves to the record
class for that name, returned from the cache when present and built on
demand otherwise. -/
theorem c4_amended (fuel : Nat) (frag defs : Json) (st : AdapterState)
    (refPath : String) (refSchema : Json)
    (href : frag.get? "$ref" = some (.str refPath))
    (hdefs : defs.get? (extractRefName refPath) = some refSchema) :
    (refSchema.hasKey "anyOf" = true →
        run (fuel + 2) (.resolveFieldType frag defs) st
          = run fuel (.resolveUnionType refSchema defs) st)
    ∧ (refSchema.hasKey "anyOf" = false → isSimpleArray refSchema = true →
        run (fuel + 2) (.resolveFieldType frag defs) st
          = run fuel (.createListType refSchema defs) st)
    ∧ (refSchema.hasKey "anyOf" = false → isSimpleArray refSchema = false →
          isSimpleObject refSchema = true →
        run (fuel + 2) (.resolveFieldType frag defs) st
          = run fuel (.createDictType refSchema defs) st)
    ∧ (refSchema.hasKey "anyOf" = false → isSimpleArray refSchema = false →
          isSimpleObject refSchema = false →
        (∀ mid, alistGet? st.propertiesCache (extractRefName refPath) = some mid →
            run (fuel + 2) (.resolveFieldType frag defs) st
              = (.ok (.ty (.model mid)), st))
        ∧ (alistGet? st.propertiesCache (extractRefName refPath) = none →
            ∀ mid st',
              run fuel (.createModel refSchema (extractRefName refPath) defs) st
                = (.ok (.model mid), st') →
              run (fuel + 2) (.resolveFieldType frag defs) st
                = (.ok (.ty (.model mid)), st'))) := by
  have hk : frag.hasKey "$ref" = true := by simp [Json.hasKey, href]
  refine ⟨fun hany => ?_, fun hany harr => ?_, fun hany harr hobj => ?_,
          fun hany harr hobj => ⟨fun mid hcache => ?_, fun hcache mid st' hcm => ?_⟩⟩
  · simp [run, hk, href, hdefs, hany]
  · simp [run, hk, href, hdefs, hany, harr]
  · simp [run, hk, href, hdefs, hany, harr, hobj]
  · simp [run, hk, href, hdefs, hany, harr, hobj, hcache]
  · simp [run, hk, href, hdefs, hany, harr, hobj, hcache, hcm]

theorem c4_amended_witness :
    run 3 (.resolveFieldType (.mkObj [("$ref", .str "#/$defs/M")]) mixedDefs) initState
      = run 1 (.createDictType mSchema mixedDefs) initState :=
  (c4_amended 1 (.mkObj [("$ref", .str "#/$defs/M")]) mixedDefs initState
    "#/$defs/M" mSchema rfl rfl).2.2.1 rfl rfl rfl

lemma node_build_diverges :
    ∀ n, run n (.createModel nodeDef "Node" nodeDefs) initState
      = (.error .recursionError, initState) := by
  intro n
  induction n using Nat.strong_induction_on with
  | _ n ih =>
    match n with
    | 0 => rfl
    | 1 => rfl
    | 2 => rfl
    | 3 => rfl
    | 4 => rfl
    | 5 => rfl
    | 6 => rfl
    | m + 7 =>
      have hrec := ih (m + 1) (by omega)
      have hname : extractRefName "#/$defs/Node" = "Node" := rfl
      simp [run, nodeDef, nodeDefs, getProperties, requiredOf, enumTitleKey,
        setFieldDefault, Json.mkObj, Json.mkArr, JsonObj.ofList, JsonList.ofList,
        Json.hasKey, Json.get?, JsonObj.get?, isSimpleArray, isSimpleObject,
        hname, alistGet?, JsonList.containsJ, jsonTypeMappings] at hrec ⊢
      rcases hE : run m (.extractFields nodeDef nodeDefs) initState with ⟨res, st1⟩
      simp only [nodeDef, nodeDefs, Json.mkObj, Json.mkArr, JsonObj.ofList,
        JsonList.ofList] at hE
      rw [hE] at hrec ⊢
      rcases res with e | v
      · simp_all
      · rcases v with t | ts | fs | mid | u <;> simp_all

/-- C1: on the spec's self-referential `Node` schema, resolution does NOT
terminate: the cache is only written after a record finishes building, so
building `Node` re-enters itself forever.  For EVERY fuel bound the run ends
in the recursion error with no record built (the state is unchanged) — the
claimed shared Record Definition never comes into existence. -/
theorem c1_node_self_reference_diverges (fuel : Nat) :
    run fuel (.createModelTop nodeTop "DynamicModel") initState
      = (.error .recursionError, initState) := by
  match fuel with
  | 0 => rfl
  | 1 => rfl
  | n + 2 =>
    have hrec := node_build_diverges n
    simp only [nodeDef, nodeDefs, Json.mkObj, Json.mkArr, JsonObj.ofList,
      JsonList.ofList] at hrec
    simp [run, nodeTop, nodeDef, Json.mkObj, Json.mkArr, JsonObj.ofList,
      JsonList.ofList, Json.get?, JsonObj.get?, hrec]

lemma alistGet?_alistSet_self {α : Type} (l : List (String × α)) (k : String) (v : α) :
    alistGet? (alistSet l k v) k = some v := by
  induction l with
  | nil => simp [alistSet, alistGet?]
  | cons p rest ihl =>
    obtain ⟨k', v'⟩ := p
    by_cases hkk : k' = k
    · simp [alistSet, alistGet?, hkk]
    · simp [alistSet, alistGet?, hkk, ihl]

lemma alistGet?_alistSet_ne {α : Type} (l : List (String × α)) (kset k : String) (v : α)
    (hne : kset ≠ k) : alistGet? (alistSet l kset v) k = alistGet? l k := by
  induction l with
  | nil => simp [alistSet, alistGet?, hne]
  | cons p rest ihl =>
    obtain ⟨k', v'⟩ := p
    by_cases hkk : k' = kset
    · subst hkk
      simp [alistSet, alistGet?, hne]
    · simp [alistSet, alistGet?, hkk, ihl]

lemma createModel_cache_hit (n : Nat) (schema : Json) (name : String) (defs : Json)
    (st : AdapterState) (mid : Nat) (h : alistGet? st.propertiesCache name = some mid) :
    run (n + 1) (.createModel schema name defs) st = (.ok (.model mid), st) := by
  simp [run, h]

lemma cache_preserved :
    ∀ (n : Nat) (op : Op) (st : AdapterState) (res : Except PyErr Val) (st' : AdapterState),
      run n op st = (res, st') →
      ∀ k mid, alistGet? st.propertiesCache k = some mid →
        alistGet? st'.propertiesCache k = some mid := by
  intro n
  induction n with
  | zero =>
    intro op st res st' h k mid hk
    cases h
    exact hk
  | succ n ih =>
    intro op st res st' h k mid hk
    cases op with
    | resolveFieldType fieldSchema defs =>
      simp only [run] at h
      split at h
      · exact ih _ _ _ _ h k mid hk
      · split at h
        · split at h <;> cases h <;> exact hk
        · split at h
          · exact ih _ _ _ _ h k mid hk
          · exact ih _ _ _ _ h k mid hk
    | resolveReference fieldSchema defs =>
      simp only [run] at h
      split at h
      · split at h
        · split at h <;> cases h <;> exact hk
        · split at h
          · exact ih _ _ _ _ h k mid hk
          · split at h
            · exact ih _ _ _ _ h k mid hk
            · split at h
              · exact ih _ _ _ _ h k mid hk
              · split at h
                · cases h; exact hk
                · split at h <;> cases h <;>
                    first
                      | exact ih _ _ _ _ (by assumption) k mid hk
      · cases h; exact hk
      · cases h; exact hk
    | resolveUnionType schema defs =>
      simp only [run] at h
      split at h
      · split at h
        · split at h
          · cases h
            exact ih _ _ _ _ (by assumption) k mid hk
          · split at h <;> cases h <;> exact ih _ _ _ _ (by assumption) k mid hk
        · cases h; exact ih _ _ _ _ (by assumption) k mid hk
        · cases h; exact ih _ _ _ _ (by assumption) k mid hk
      · cases h; exact hk
      · cases h; exact hk
    | unionOptions options defs =>
      simp only [run] at h
      split at h
      · cases h; exact hk
      · split at h
        · split at h <;> cases h <;>
            exact ih _ _ _ _ (by assumption) k mid (ih _ _ _ _ (by assumption) k mid hk)
        · cases h; exact ih _ _ _ _ (by assumption) k mid hk
        · cases h; exact ih _ _ _ _ (by assumption) k mid hk
    | resolveUnionOption option defs =>
      simp only [run] at h
      split at h
      · exact ih _ _ _ _ h k mid hk
      · split at h
        · cases h; exact hk
        · exact ih _ _ _ _ h k mid hk
    | resolveBasicType schema defs =>
      simp only [run] at h
      split at h
      · cases h; exact hk
      · split at h
        · exact ih _ _ _ _ h k mid hk
        · split at h
          · exact ih _ _ _ _ h k mid hk
          · cases h; exact hk
    | createListType schema defs =>
      simp only [run] at h
      split at h
      · split at h <;> cases h <;> exact ih _ _ _ _ (by assumption) k mid hk
      · cases h; exact hk
    | createDictType schema defs =>
      simp only [run] at h
      split at h
      · split at h <;> cases h <;> exact ih _ _ _ _ (by assumption) k mid hk
      · cases h; exact hk
    | extractFields schema defs =>
      simp only [run] at h
      split at h
      · cases h; exact hk
      · split at h
        · cases h; exact hk
        · exact ih _ _ _ _ h k mid hk
    | fieldsLoop props required defs acc =>
      simp only [run] at h
      split at h
      · cases h; exact hk
      · split at h
        · next t st1 heq =>
            exact ih _ _ _ _ h k mid (ih _ _ _ _ heq k mid hk)
        · cases h; exact ih _ _ _ _ (by assumption) k mid hk
        · cases h; exact ih _ _ _ _ (by assumption) k mid hk
    | createModel schema modelName defs =>
      simp only [run] at h
      split at h
      · cases h; exact hk
      · next hmiss =>
        split at h
        · next fs st1 heq =>
            cases h
            have hk1 := ih _ _ _ _ heq k mid hk
            have hne : modelName ≠ k := by
              intro hcontra
              subst hcontra
              rw [hmiss] at hk
              exact Option.noConfusion hk
            simpa [alistGet?_alistSet_ne _ _ _ _ hne] using hk1
        · cases h; exact ih _ _ _ _ (by assumption) k mid hk
        · cases h; exact ih _ _ _ _ (by assumption) k mid hk
    | defsLoop entries defs =>
      simp only [run] at h
      split at h
      · cases h; exact hk
      · next clsName clsSchema rest =>
        split at h
        · next mid' st1 heq =>
            by_cases hkc : clsName = k
            · subst hkc
              cases n with
              | zero => simp [run] at heq
              | succ p =>
                rw [createModel_cache_hit p _ _ _ st mid hk] at heq
                simp only [Prod.mk.injEq, Except.ok.injEq, Val.model.injEq] at heq
                obtain ⟨hm, hst⟩ := heq
                subst hm
                subst hst
                refine ih _ _ _ _ h clsName mid ?_
                simpa using alistGet?_alistSet_self st.propertiesCache clsName mid
            · have hk1 := ih _ _ _ _ heq k mid hk
              refine ih _ _ _ _ h k mid ?_
              simpa [alistGet?_alistSet_ne _ _ _ _ hkc] using hk1
        · cases h; exact ih _ _ _ _ (by assumption) k mid hk
        · cases h; exact ih _ _ _ _ (by assumption) k mid hk
    | createModelTop schema modelName =>
      simp only [run] at h
      split at h
      · split at h
        · next u st1 heq =>
            exact ih _ _ _ _ h k mid (ih _ _ _ _ heq k mid hk)
        · cases h; exact ih _ _ _ _ (by assumption) k mid hk
      · cases h; exact hk

/-- C8: the resolution cache lives on the adapter and is never invalidated:
(1) any binding present in `properties_cache` before ANY adapter operation is
still present, unchanged, afterwards (successful or raising); and (2) once a
name is cached, building "a model" of that name — with ANY schema, e.g. from
a later `create_model_from_json_schema` call whose `$defs` redefines the
name — returns the originally cached record class and leaves the state
untouched. -/
theorem c8_cache_is_permanent :
    (∀ (n : Nat) (op : Op) (st : AdapterState) (res : Except PyErr Val) (st' : AdapterState),
        run n op st = (res, st') →
        ∀ k mid, alistGet? st.propertiesCache k = some mid →
          alistGet? st'.propertiesCache k = some mid)
    ∧ (∀ (n : Nat) (schema : Json) (name : String) (defs : Json)
          (st : AdapterState) (mid : Nat),
        alistGet? st.propertiesCache name = some mid →
        run (n + 1) (.createModel schema name defs) st = (.ok (.model mid), st)) :=
  ⟨cache_preserved, createModel_cache_hit⟩

theorem c8_witness :
    alistGet? (AdapterState.mk [("A", 7)] [] 9).propertiesCache "A" = some 7
    ∧ run 1 (.createModel nodeDef "A" (.obj .nil)) (AdapterState.mk [("A", 7)] [] 9)
        = (.ok (.model 7), AdapterState.mk [("A", 7)] [] 9) :=
  ⟨c8_cache_is_permanent.1 1 (.resolveBasicType (.obj .nil) (.obj .nil))
      (AdapterState.mk [("A", 7)] [] 9) (.ok (.ty .str))
      (AdapterState.mk [("A", 7)] [] 9) rfl "A" 7 rfl,
   c8_cache_is_permanent.2 0 nodeDef "A" (.obj .nil) (AdapterState.mk [("A", 7)] [] 9) 7 rfl⟩

lemma pair_eq_fst {α β : Type} {x : α} {y : β} {res : α} {st' : β}
    (h : (x, y) = (res, st')) : res = x :=
  (congrArg Prod.fst h).symm

lemma run_mono :
    ∀ (n : Nat) (op : Op) (st : AdapterState) (res : Except PyErr Val) (st' : AdapterState),
      run n op st = (res, st') → res ≠ .error .recursionError →
      ∀ m, n ≤ m → run m op st = (res, st') := by
  intro n
  induction n with
  | zero =>
    intro op st res st' h hres m hm
    cases h
    exact absurd rfl hres
  | succ n ih =>
    intro op st res st' h hres m hm
    obtain ⟨m, rfl⟩ : ∃ m', m = m' + 1 := ⟨m - 1, by omega⟩
    have hnm : n ≤ m := by omega
    cases op with
    | resolveFieldType fieldSchema defs =>
      by_cases h1 : fieldSchema.hasKey "$ref" = true <;>
        by_cases h2 : fieldSchema.hasKey "enum" = true <;>
        by_cases h3 : fieldSchema.hasKey "anyOf" = true <;>
        simp only [run, h1, h2, h3, if_true, if_false] at h ⊢ <;>
        first
        | exact h
        | exact ih _ _ _ _ h hres m hnm
    | resolveReference fieldSchema defs =>
      rcases hr : fieldSchema.get? "$ref" with - | j
      · simp only [run, hr] at h ⊢
        exact h
      · cases j with
        | str refPath =>
          rcases hd : Json.get? defs (extractRefName refPath) with - | refSchema
          · simp only [run, hr, hd] at h ⊢
            exact h
          · by_cases h1 : refSchema.hasKey "anyOf" = true
            · simp only [run, hr, hd, h1, if_true] at h ⊢
              exact ih _ _ _ _ h hres m hnm
            · by_cases h2 : isSimpleArray refSchema = true
              · simp only [run, hr, hd, h1, h2, if_true, if_false] at h ⊢
                exact ih _ _ _ _ h hres m hnm
              · by_cases h3 : isSimpleObject refSchema = true
                · simp only [run, hr, hd, h1, h2, h3, if_true, if_false] at h ⊢
                  exact ih _ _ _ _ h hres m hnm
                · rcases hc : alistGet? st.propertiesCache (extractRefName refPath)
                    with - | mid
                  · simp only [run, hr, hd, h1, h2, h3, hc, if_false] at h ⊢
                    rcases hinner :
                      run n (.createModel refSchema (extractRefName refPath) defs) st
                      with ⟨res1, st1⟩
                    rw [hinner] at h
                    have hres1 : res1 ≠ .error .recursionError := by
                      intro hcontra
                      subst hcontra
                      exact hres (pair_eq_fst h)
                    rw [ih _ _ _ _ hinner hres1 m hnm]
                    exact h
                  · simp only [run, hr, hd, h1, h2, h3, hc, if_false] at h ⊢
                    exact h
        | null => simp only [run, hr] at h ⊢; exact h
        | bool b => simp only [run, hr] at h ⊢; exact h
        | num q => simp only [run, hr] at h ⊢; exact h
        | arr l => simp only [run, hr] at h ⊢; exact h
        | obj o => simp only [run, hr] at h ⊢; exact h
    | resolveUnionType schema defs =>
      rcases hr : schema.get? "anyOf" with - | j
      · simp only [run, hr] at h ⊢
        exact h
      · cases j with
        | arr options =>
          simp only [run, hr] at h ⊢
          rcases hinner : run n (.unionOptions options defs) st with ⟨res1, st1⟩
          rw [hinner] at h
          have hres1 : res1 ≠ .error .recursionError := by
            intro hcontra
            subst hcontra
            exact hres (pair_eq_fst h)
          rw [ih _ _ _ _ hinner hres1 m hnm]
          exact h
        | null => simp only [run, hr] at h ⊢; exact h
        | bool b => simp only [run, hr] at h ⊢; exact h
        | num q => simp only [run, hr] at h ⊢; exact h
        | str s => simp only [run, hr] at h ⊢; exact h
        | obj o => simp only [run, hr] at h ⊢; exact h
    | unionOptions options defs =>
      cases options with
      | nil => simp only [run] at h ⊢; exact h
      | cons o rest =>
        simp only [run] at h ⊢
        rcases hinner : run n (.resolveUnionOption o defs) st with ⟨res1, st1⟩
        rw [hinner] at h
        have hres1 : res1 ≠ .error .recursionError := by
          intro hcontra
          subst hcontra
          exact hres (pair_eq_fst h)
        rw [ih _ _ _ _ hinner hres1 m hnm]
        rcases res1 with e | v
        · exact h
        · cases v with
          | ty t =>
            simp only [] at h ⊢
            rcases hinner2 : run n (.unionOptions rest defs) st1 with ⟨res2, st2⟩
            rw [hinner2] at h
            have hres2 : res2 ≠ .error .recursionError := by
              intro hcontra
              subst hcontra
              exact hres (pair_eq_fst h)
            rw [ih _ _ _ _ hinner2 hres2 m hnm]
            exact h
          | tys ts => exact h
          | fields fs => exact h
          | model mid => exact h
          | unit => exact h
    | resolveUnionOption option defs =>
      by_cases h1 : option.hasKey "$ref" = true
      · simp only [run, h1, if_true] at h ⊢
        exact ih _ _ _ _ h hres m hnm
      · by_cases h2 : option.get? "type" = some (.str "null")
        · simp only [run, h1, h2, if_true, if_false] at h ⊢
          exact h
        · simp only [run, h1, h2, if_true, if_false] at h ⊢
          exact ih _ _ _ _ h hres m hnm
    | resolveBasicType schema defs =>
      have hbranch : ∀ res2 st2,
          (if isSimpleArray schema = true then run n (.createListType schema defs) st
           else if isSimpleObject schema = true then run n (.createDictType schema defs) st
           else (res2, st2)) = (res, st') →
          (if isSimpleArray schema = true then run m (.createListType schema defs) st
           else if isSimpleObject schema = true then run m (.createDictType schema defs) st
           else (res2, st2)) = (res, st') := by
        intro res2 st2 hx
        by_cases h1 : isSimpleArray schema = true <;>
          by_cases h2 : isSimpleObject schema = true <;>
          simp only [h1, h2, if_true, if_false] at hx ⊢ <;>
          first
          | exact hx
          | exact ih _ _ _ _ hx hres m hnm
      cases hjt : (Json.get? schema "type").getD (.str "string") with
      | arr l =>
        cases l with
        | nil => simp only [run, hjt] at h ⊢; exact h
        | cons x xs =>
          simp only [run, hjt] at h ⊢
          exact hbranch _ _ h
      | null => simp only [run, hjt] at h ⊢; exact hbranch _ _ h
      | bool b => simp only [run, hjt] at h ⊢; exact hbranch _ _ h
      | num q => simp only [run, hjt] at h ⊢; exact hbranch _ _ h
      | str s => simp only [run, hjt] at h ⊢; exact hbranch _ _ h
      | obj o => simp only [run, hjt] at h ⊢; exact hbranch _ _ h
    | createListType schema defs =>
      rcases hitem : schema.get? "items" with - | item
      · simp only [run, hitem] at h ⊢
        exact h
      · simp only [run, hitem] at h ⊢
        rcases hinner : run n (.resolveFieldType item defs) st with ⟨res1, st1⟩
        rw [hinner] at h
        have hres1 : res1 ≠ .error .recursionError := by
          intro hcontra
          subst hcontra
          exact hres (pair_eq_fst h)
        rw [ih _ _ _ _ hinner hres1 m hnm]
        exact h
    | createDictType schema defs =>
      rcases hitem : schema.get? "additionalProperties" with - | item
      · simp only [run, hitem] at h ⊢
        exact h
      · simp only [run, hitem] at h ⊢
        rcases hinner : run n (.resolveFieldType item defs) st with ⟨res1, st1⟩
        rw [hinner] at h
        have hres1 : res1 ≠ .error .recursionError := by
          intro hcontra
          subst hcontra
          exact hres (pair_eq_fst h)
        rw [ih _ _ _ _ hinner hres1 m hnm]
        exact h
    | extractFields schema defs =>
      rcases hp : getProperties schema with e | props
      · simp only [run, hp] at h ⊢
        exact h
      · rcases hq : requiredOf schema with e | reqRaw
        · simp only [run, hp, hq] at h ⊢
          exact h
        · simp only [run, hp, hq] at h ⊢
          exact ih _ _ _ _ h hres m hnm
    | fieldsLoop props required defs acc =>
      cases props with
      | nil => simp only [run] at h ⊢; exact h
      | cons fieldName fieldSchema rest =>
        simp only [run] at h ⊢
        rcases hinner : run n (.resolveFieldType fieldSchema defs) st with ⟨res1, st1⟩
        rw [hinner] at h
        have hres1 : res1 ≠ .error .recursionError := by
          intro hcontra
          subst hcontra
          exact hres (pair_eq_fst h)
        rw [ih _ _ _ _ hinner hres1 m hnm]
        rcases res1 with e | v
        · exact h
        · cases v with
          | ty t =>
            simp only [] at h ⊢
            exact ih _ _ _ _ h hres m hnm
          | tys ts => exact h
          | fields fs => exact h
          | model mid => exact h
          | unit => exact h
    | createModel schema modelName defs =>
      rcases hc : alistGet? st.propertiesCache modelName with - | mid
      · simp only [run, hc] at h ⊢
        rcases hinner : run n (.extractFields schema defs) st with ⟨res1, st1⟩
        rw [hinner] at h
        have hres1 : res1 ≠ .error .recursionError := by
          intro hcontra
          subst hcontra
          exact hres (pair_eq_fst h)
        rw [ih _ _ _ _ hinner hres1 m hnm]
        exact h
      · simp only [run, hc] at h ⊢
        exact h
    | defsLoop entries defs =>
      cases entries with
      | nil => simp only [run] at h ⊢; exact h
      | cons clsName clsSchema rest =>
        simp only [run] at h ⊢
        rcases hinner : run n (.createModel clsSchema clsName defs) st with ⟨res1, st1⟩
        rw [hinner] at h
        have hres1 : res1 ≠ .error .recursionError := by
          intro hcontra
          subst hcontra
          exact hres (pair_eq_fst h)
        rw [ih _ _ _ _ hinner hres1 m hnm]
        rcases res1 with e | v
        · exact h
        · cases v with
          | model mid =>
            simp only [] at h ⊢
            exact ih _ _ _ _ h hres m hnm
          | ty t => exact h
          | tys ts => exact h
          | fields fs => exact h
          | unit => exact h
    | createModelTop schema modelName =>
      cases hds : (Json.get? schema "$defs").getD (.obj .nil) with
      | obj entries =>
        simp only [run, hds] at h ⊢
        rcases hinner : run n (.defsLoop entries (.obj entries)) st with ⟨res1, st1⟩
        rw [hinner] at h
        have hres1 : res1 ≠ .error .recursionError := by
          intro hcontra
          subst hcontra
          exact hres (pair_eq_fst h)
        rw [ih _ _ _ _ hinner hres1 m hnm]
        rcases res1 with e | v
        · exact h
        · exact ih _ _ _ _ h hres m hnm
      | null => simp only [run, hds] at h ⊢; exact h
      | bool b => simp only [run, hds] at h ⊢; exact h
      | num q => simp only [run, hds] at h ⊢; exact h
      | str s => simp only [run, hds] at h ⊢; exact h
      | arr l => simp only [run, hds] at h ⊢; exact h

lemma afterLastSep_none_of_hasSub_false (sep : List Char) :
    ∀ l, hasSub sep l = false → afterLastSep sep l = none := by
  intro l
  induction l with
  | nil => intro h; rfl
  | cons c rest ihl =>
    intro h
    simp only [hasSub, Bool.or_eq_false_iff] at h
    obtain ⟨h1, h2⟩ := h
    simp [afterLastSep, ihl h2, h1]

lemma extractRefName_clean (nm : String) (h : cleanName nm = true) :
    extractRefName ("#/$defs/" ++ nm) = nm := by
  have hdata : ("#/$defs/" ++ nm).data = "#/$defs/".data ++ nm.data := String.data_append ..
  have hclean : hasSub "#/$defs/".data nm.data = false := by
    simpa [cleanName] using h
  have hnone := afterLastSep_none_of_hasSub_false "#/$defs/".data nm.data hclean
  have hsep : "#/$defs/".data = ['#', '/', '$', 'd', 'e', 'f', 's', '/'] := rfl
  obtain ⟨l⟩ := nm
  simp only [extractRefName, hdata]
  rw [hsep] at hnone
  simp [afterLastSep, hnone, List.isPrefixOf]

lemma withIds_append (L1 L2 : List String) (a : Nat) :
    withIds (L1 ++ L2) a = withIds L1 a ++ withIds L2 (a + L1.length) := by
  induction L1 generalizing a with
  | nil => simp [withIds]
  | cons nm rest ihl => simp [withIds, ihl, Nat.add_assoc, Nat.add_comm 1]

lemma alistGet?_withIds_of_not_mem (L : List String) (a : Nat) (nm : String)
    (h : nm ∉ L) : alistGet? (withIds L a) nm = none := by
  induction L generalizing a with
  | nil => rfl
  | cons x rest ihl =>
    simp only [List.mem_cons, not_or] at h
    have hx : x ≠ nm := fun hh => h.1 hh.symm
    simp [withIds, alistGet?, hx, ihl (a + 1) h.2]

lemma alistGet?_withIds_of_mem (L : List String) (a : Nat) (nm : String)
    (h : nm ∈ L) : ∃ v, alistGet? (withIds L a) nm = some v := by
  induction L generalizing a with
  | nil => cases h
  | cons x rest ihl =>
    by_cases hx : x = nm
    · exact ⟨a, by simp [withIds, alistGet?, hx]⟩
    · have : nm ∈ rest := by
        rcases List.mem_cons.mp h with h1 | h1
        · exact absurd h1.symm hx
        · exact h1
      obtain ⟨v, hv⟩ := ihl (a + 1) this
      exact ⟨v, by simp [withIds, alistGet?, hx, hv]⟩

lemma alistGet?_append_right {α : Type} (l1 l2 : List (String × α)) (k : String)
    (h : alistGet? l1 k = none) : alistGet? (l1 ++ l2) k = alistGet? l2 k := by
  induction l1 with
  | nil => rfl
  | cons p rest ihl =>
    obtain ⟨k', v'⟩ := p
    by_cases hk : k' = k
    · simp [alistGet?, hk] at h
    · simp only [alistGet?, hk, if_false] at h
      simp only [List.cons_append, alistGet?, hk, if_false]
      exact ihl h

lemma alistSet_append_of_none {α : Type} (l : List (String × α)) (k : String) (v : α)
    (h : alistGet? l k = none) : alistSet l k v = l ++ [(k, v)] := by
  induction l with
  | nil => rfl
  | cons p rest ihl =>
    obtain ⟨k', v'⟩ := p
    by_cases hk : k' = k
    · simp [alistGet?, hk] at h
    · simp only [alistGet?, hk, if_false] at h
      simp [alistSet, hk, ihl h]

lemma alistSet_self_of_get {α : Type} (l : List (String × α)) (k : String) (v : α)
    (h : alistGet? l k = some v) : alistSet l k v = l := by
  induction l with
  | nil => simp [alistGet?] at h
  | cons p rest ihl =>
    obtain ⟨k', v'⟩ := p
    by_cases hk : k' = k
    · subst hk
      have h' : v' = v := by simpa [alistGet?] using h
      subst h'
      simp [alistSet]
    · simp only [alistGet?, hk, if_false] at h
      simp [alistSet, hk, ihl h]

lemma defsToJson_get? (D : List (String × FragDesc)) (nm : String) :
    (defsToJson D).get? nm = (alistGet? D nm).map FragDesc.toJson := by
  induction D with
  | nil => rfl
  | cons p rest ihl =>
    obtain ⟨k', f⟩ := p
    by_cases hk : k' = nm
    · simp [defsToJson, JsonObj.get?, alistGet?, hk]
    · simp [defsToJson, JsonObj.get?, alistGet?, hk, ihl]

lemma toJsons_toList : ∀ (fl : FragList),
    (fl.toJsons).toList = fl.toList.map FragDesc.toJson
  | .nil => rfl
  | .cons f fs => by
      simp [FragList.toJsons, FragList.toList, JsonList.toList, toJsons_toList fs]

lemma propToJson_toList : ∀ (ps : PropList),
    (ps.toJson).toList = ps.toList.map (fun p => (p.1, p.2.toJson))
  | .nil => rfl
  | .cons nm f rest => by
      simp [PropList.toJson, PropList.toList, JsonObj.toList, propToJson_toList rest]

lemma fsize_le_of_mem_fragList : ∀ (fl : FragList) (g : FragDesc),
    g ∈ fl.toList → g.fsize ≤ fl.fsize
  | .nil, g, h => by cases h
  | .cons f fs, g, h => by
      rcases List.mem_cons.mp h with h1 | h1
      · subst h1
        simp [FragList.fsize]
        omega
      · have := fsize_le_of_mem_fragList fs g h1
        simp [FragList.fsize]
        omega

lemma fsize_le_of_mem_propList : ∀ (ps : PropList) (nm : String) (g : FragDesc),
    (nm, g) ∈ ps.toList → g.fsize ≤ ps.fsize
  | .nil, nm, g, h => by cases h
  | .cons nm0 f fs, nm, g, h => by
      rcases List.mem_cons.mp h with h1 | h1
      · cases h1
        simp [PropList.fsize]
        omega
      · have := fsize_le_of_mem_propList fs nm g h1
        simp [PropList.fsize]
        omega

lemma scoped_of_mem_fragList : ∀ (allowed : List String) (fl : FragList) (g : FragDesc),
    fl.scopedTo allowed = true → g ∈ fl.toList → g.scopedTo allowed = true
  | allowed, .nil, g, _, h => by cases h
  | allowed, .cons f fs, g, hs, h => by
      simp only [FragList.scopedTo, Bool.and_eq_true] at hs
      rcases List.mem_cons.mp h with h1 | h1
      · subst h1; exact hs.1
      · exact scoped_of_mem_fragList allowed fs g hs.2 h1

lemma scoped_of_mem_propList :
    ∀ (allowed : List String) (ps : PropList) (nm : String) (g : FragDesc),
      ps.scopedTo allowed = true → (nm, g) ∈ ps.toList → g.scopedTo allowed = true
  | allowed, .nil, nm, g, _, h => by cases h
  | allowed, .cons nm0 f fs, nm, g, hs, h => by
      simp only [PropList.scopedTo, Bool.and_eq_true] at hs
      rcases List.mem_cons.mp h with h1 | h1
      · cases h1; exact hs.1
      · exact scoped_of_mem_propList allowed fs nm g hs.2 h1

lemma unionOptions_ok (dfs : Json) (st : AdapterState) : ∀ (opts : JsonList),
    (∀ oj ∈ opts.toList,
      ∃ n t, run n (.resolveUnionOption oj dfs) st = (.ok (.ty t), st)) →
    ∃ n ts, run n (.unionOptions opts dfs) st = (.ok (.tys ts), st) ∧
      ts.length = opts.toList.length
  | .nil, _ => ⟨1, [], rfl, rfl⟩
  | .cons o os, hyp => by
      obtain ⟨n1, t, h1⟩ := hyp o (by simp [JsonList.toList])
      obtain ⟨n2, ts, h2, hlen⟩ :=
        unionOptions_ok dfs st os (fun oj hm => hyp oj (by simp [JsonList.toList, hm]))
      refine ⟨max n1 n2 + 1, t :: ts, ?_, by simp [JsonList.toList, hlen]⟩
      have h1' := run_mono n1 _ _ _ _ h1 (by simp) (max n1 n2) (le_max_left ..)
      have h2' := run_mono n2 _ _ _ _ h2 (by simp) (max n1 n2) (le_max_right ..)
      simp only [run, h1', h2']

lemma contains_mem {l : List String} {a : String} (h : l.contains a = true) : a ∈ l := by
  simpa using h

lemma frag_resolve_ok (dfs : Json) (st : AdapterState) (allowed : List String)
    (href : ∀ nm, nm ∈ allowed →
      ∃ n t, run n (.resolveReference (FragDesc.ref nm).toJson dfs) st = (.ok (.ty t), st)) :
    ∀ (s : Nat) (f : FragDesc), f.fsize ≤ s → f.scopedTo allowed = true →
      (∃ n t, run n (.resolveFieldType f.toJson dfs) st = (.ok (.ty t), st))
      ∧ (∃ n t, run n (.resolveBasicType f.toJson dfs) st = (.ok (.ty t), st))
      ∧ (∃ n t, run n (.resolveUnionOption f.toJson dfs) st = (.ok (.ty t), st)) := by
  intro s
  induction s with
  | zero =>
    intro f hsz
    exact absurd hsz (by cases f <;> simp [FragDesc.fsize])
  | succ s ihs =>
    intro f hsz hscope
    cases f with
    | basic t =>
      refine ⟨⟨2, (jsonTypeMappings (.str t)).getD .str, ?_⟩,
              ⟨1, (jsonTypeMappings (.str t)).getD .str, ?_⟩, ?_⟩
      · simp [run, FragDesc.toJson, Json.hasKey, Json.get?, JsonObj.get?,
          isSimpleArray, isSimpleObject]
      · simp [run, FragDesc.toJson, Json.hasKey, Json.get?, JsonObj.get?,
          isSimpleArray, isSimpleObject]
      · by_cases ht : t = "null"
        · subst ht
          exact ⟨1, .noneType, by
            simp [run, FragDesc.toJson, Json.hasKey, Json.get?, JsonObj.get?]⟩
        · exact ⟨2, (jsonTypeMappings (.str t)).getD .str, by
            simp [run, FragDesc.toJson, Json.hasKey, Json.get?, JsonObj.get?,
              isSimpleArray, isSimpleObject, ht]⟩
    | enumOf title vals =>
      refine ⟨⟨1, .literal (JsonList.ofList (dedup vals.toList)), ?_⟩,
              ⟨1, .str, ?_⟩, ⟨2, .str, ?_⟩⟩
      · simp [run, FragDesc.toJson, Json.hasKey, Json.get?, JsonObj.get?]
      · simp [run, FragDesc.toJson, Json.hasKey, Json.get?, JsonObj.get?,
          isSimpleArray, isSimpleObject, jsonTypeMappings]
      · simp [run, FragDesc.toJson, Json.hasKey, Json.get?, JsonObj.get?,
          isSimpleArray, isSimpleObject, jsonTypeMappings]
    | arrayOf item =>
      have hsz1 : item.fsize ≤ s := by
        have h1 : item.fsize + 1 ≤ s + 1 := by simpa [FragDesc.fsize] using hsz
        omega
      have hsub := ihs item hsz1 (by simpa [FragDesc.scopedTo] using hscope)
      obtain ⟨⟨nA, tA, hA⟩, -, -⟩ := hsub
      refine ⟨⟨nA + 3, .listOf tA, ?_⟩, ⟨nA + 2, .listOf tA, ?_⟩, ⟨nA + 3, .listOf tA, ?_⟩⟩
      · simp [run, FragDesc.toJson, Json.hasKey, Json.get?, JsonObj.get?,
          isSimpleArray, isSimpleObject, hA]
      · simp [run, FragDesc.toJson, Json.hasKey, Json.get?, JsonObj.get?,
          isSimpleArray, isSimpleObject, hA]
      · simp [run, FragDesc.toJson, Json.hasKey, Json.get?, JsonObj.get?,
          isSimpleArray, isSimpleObject, hA]
    | mapOf value =>
      have hsz1 : value.fsize ≤ s := by
        have h1 : value.fsize + 1 ≤ s + 1 := by simpa [FragDesc.fsize] using hsz
        omega
      have hsub := ihs value hsz1 (by simpa [FragDesc.scopedTo] using hscope)
      obtain ⟨⟨nA, tA, hA⟩, -, -⟩ := hsub
      refine ⟨⟨nA + 3, .dictOf tA, ?_⟩, ⟨nA + 2, .dictOf tA, ?_⟩, ⟨nA + 3, .dictOf tA, ?_⟩⟩
      · simp [run, FragDesc.toJson, Json.hasKey, Json.get?, JsonObj.get?,
          isSimpleArray, isSimpleObject, hA]
      · simp [run, FragDesc.toJson, Json.hasKey, Json.get?, JsonObj.get?,
          isSimpleArray, isSimpleObject, hA]
      · simp [run, FragDesc.toJson, Json.hasKey, Json.get?, JsonObj.get?,
          isSimpleArray, isSimpleObject, hA]
    | unionOf o rest =>
      have hsz' : o.fsize + rest.fsize + 1 ≤ s + 1 := by simpa [FragDesc.fsize] using hsz
      have hscope' : o.scopedTo allowed = true ∧ rest.scopedTo allowed = true := by
        simpa [FragDesc.scopedTo, Bool.and_eq_true] using hscope
      have hopts : ∀ oj ∈ (JsonList.cons o.toJson rest.toJsons).toList,
          ∃ n t, run n (.resolveUnionOption oj dfs) st = (.ok (.ty t), st) := by
        intro oj hm
        simp only [JsonList.toList, List.mem_cons, toJsons_toList] at hm
        rcases hm with h1 | h1
        · subst h1
          exact (ihs o (by omega) hscope'.1).2.2
        · obtain ⟨g, hg, rfl⟩ := List.mem_map.mp h1
          have h2 := fsize_le_of_mem_fragList rest g hg
          exact (ihs g (by omega) (scoped_of_mem_fragList allowed rest g hscope'.2 hg)).2.2
      obtain ⟨nU, ts, hU, hlen⟩ := unionOptions_ok dfs st _ hopts
      have hA : ∃ tr, run (nU + 2)
          (.resolveFieldType (FragDesc.unionOf o rest).toJson dfs) st = (.ok (.ty tr), st) := by
        cases ts with
        | nil =>
          exfalso
          simp [JsonList.toList] at hlen
        | cons t0 ts' =>
          cases ts' with
          | nil =>
            exact ⟨t0, by
              simp [run, FragDesc.toJson, Json.hasKey, Json.get?, JsonObj.get?, hU]⟩
          | cons t1 ts2 =>
            exact ⟨mkUnion (t0 :: t1 :: ts2), by
              simp [run, FragDesc.toJson, Json.hasKey, Json.get?, JsonObj.get?, hU]⟩
      obtain ⟨tr, hAr⟩ := hA
      refine ⟨⟨nU + 2, tr, hAr⟩, ⟨1, .str, ?_⟩, ⟨2, .str, ?_⟩⟩
      · simp [run, FragDesc.toJson, Json.hasKey, Json.get?, JsonObj.get?,
          isSimpleArray, isSimpleObject, jsonTypeMappings]
      · simp [run, FragDesc.toJson, Json.hasKey, Json.get?, JsonObj.get?,
          isSimpleArray, isSimpleObject, jsonTypeMappings]
    | objectOf props req =>
      refine ⟨⟨2, .dictBare, ?_⟩, ⟨1, .dictBare, ?_⟩, ⟨2, .dictBare, ?_⟩⟩
      · simp [run, FragDesc.toJson, Json.hasKey, Json.get?, JsonObj.get?,
          isSimpleArray, isSimpleObject, jsonTypeMappings]
      · simp [run, FragDesc.toJson, Json.hasKey, Json.get?, JsonObj.get?,
          isSimpleArray, isSimpleObject, jsonTypeMappings]
      · simp [run, FragDesc.toJson, Json.hasKey, Json.get?, JsonObj.get?,
          isSimpleArray, isSimpleObject, jsonTypeMappings]
    | ref nm =>
      have hmem : nm ∈ allowed := contains_mem (by simpa [FragDesc.scopedTo] using hscope)
      obtain ⟨nR, tR, hR⟩ := href nm hmem
      simp only [FragDesc.toJson] at hR
      refine ⟨⟨nR + 1, tR, ?_⟩, ⟨1, .str, ?_⟩, ⟨nR + 1, tR, ?_⟩⟩
      · simp [run, FragDesc.toJson, Json.hasKey, Json.get?, JsonObj.get?, hR]
      · simp [run, FragDesc.toJson, Json.hasKey, Json.get?, JsonObj.get?,
          isSimpleArray, isSimpleObject, jsonTypeMappings]
      · simp [run, FragDesc.toJson, Json.hasKey, Json.get?, JsonObj.get?, hR]

lemma fieldsLoop_ok (dfs : Json) (st : AdapterState) : ∀ (props : JsonObj),
    (∀ p ∈ props.toList,
      ∃ n t, run n (.resolveFieldType p.2 dfs) st = (.ok (.ty t), st)) →
    ∀ (required : JsonList) (acc : List (String × FieldDef)),
      ∃ n out, run n (.fieldsLoop props required dfs acc) st = (.ok (.fields out), st)
  | .nil, _, required, acc => ⟨1, acc, rfl⟩
  | .cons fn fsch rest, hyp, required, acc => by
      obtain ⟨n1, t, h1⟩ := hyp (fn, fsch) (by simp [JsonObj.toList])
      obtain ⟨n2, out, h2⟩ :=
        fieldsLoop_ok dfs st rest (fun p hm => hyp p (by simp [JsonObj.toList, hm]))
          required
          (alistSet acc fn
            { type := (setFieldDefault fn required t fsch).2,
              default := (setFieldDefault fn required t fsch).1,
              description := (fsch.get? "description").getD (.str "") })
      refine ⟨max n1 n2 + 1, out, ?_⟩
      have h1' := run_mono n1 _ _ _ _ h1 (by simp) (max n1 n2) (le_max_left ..)
      have h2' := run_mono n2 _ _ _ _ h2 (by simp) (max n1 n2) (le_max_right ..)
      simp only [run, h1', h2']

lemma extractFields_ok (dfs : Json) (st : AdapterState) (allowed : List String)
    (href : ∀ nm, nm ∈ allowed →
      ∃ n t, run n (.resolveReference (FragDesc.ref nm).toJson dfs) st = (.ok (.ty t), st))
    (g : FragDesc) (hscope : g.scopedTo allowed = true) :
    ∃ n fs, run n (.extractFields g.toJson dfs) st = (.ok (.fields fs), st) := by
  cases g with
  | objectOf props req =>
    have hprops : ∀ p ∈ (props.toJson).toList,
        ∃ n t, run n (.resolveFieldType p.2 dfs) st = (.ok (.ty t), st) := by
      intro p hm
      rw [propToJson_toList] at hm
      obtain ⟨⟨nm0, g0⟩, hg0, rfl⟩ := List.mem_map.mp hm
      have hsc : g0.scopedTo allowed = true :=
        scoped_of_mem_propList allowed props nm0 g0
          (by simpa [FragDesc.scopedTo] using hscope) hg0
      exact (frag_resolve_ok dfs st allowed href g0.fsize g0 le_rfl hsc).1
    obtain ⟨n1, out, h1⟩ := fieldsLoop_ok dfs st props.toJson hprops req []
    refine ⟨n1 + 1, out, ?_⟩
    simp [run, FragDesc.toJson, getProperties, requiredOf, Json.hasKey,
      Json.get?, JsonObj.get?, h1]
  | enumOf title vals =>
    refine ⟨3, [(title,
      { type := .literal (JsonList.ofList (dedup vals.toList)), default := .ellipsis,
        description := .str "" })], ?_⟩
    simp [run, FragDesc.toJson, getProperties, requiredOf, enumTitleKey,
      Json.hasKey, Json.get?, JsonObj.get?, setFieldDefault, JsonList.containsJ,
      alistSet]
  | basic t =>
    exact ⟨2, [], by
      simp [run, FragDesc.toJson, getProperties, requiredOf, Json.hasKey,
        Json.get?, JsonObj.get?]⟩
  | arrayOf item =>
    exact ⟨2, [], by
      simp [run, FragDesc.toJson, getProperties, requiredOf, Json.hasKey,
        Json.get?, JsonObj.get?]⟩
  | mapOf value =>
    exact ⟨2, [], by
      simp [run, FragDesc.toJson, getProperties, requiredOf, Json.hasKey,
        Json.get?, JsonObj.get?]⟩
  | unionOf o rest =>
    exact ⟨2, [], by
      simp [run, FragDesc.toJson, getProperties, requiredOf, Json.hasKey,
        Json.get?, JsonObj.get?]⟩
  | ref nm =>
    exact ⟨2, [], by
      simp [run, FragDesc.toJson, getProperties, requiredOf, Json.hasKey,
        Json.get?, JsonObj.get?]⟩

lemma toJson_isObj (f : FragDesc) : ∃ o, f.toJson = .obj o := by
  cases f <;> exact ⟨_, rfl⟩

lemma topJson_get?_defs (D : List (String × FragDesc)) (root : FragDesc) :
    (topJson D root).get? "$defs" = some (.obj (defsToJson D)) := by
  obtain ⟨o, ho⟩ := toJson_isObj root
  simp [topJson, ho, Json.get?, JsonObj.get?]

lemma topJson_get?_ne (D : List (String × FragDesc)) (root : FragDesc) (k : String)
    (hk : k ≠ "$defs") : (topJson D root).get? k = root.toJson.get? k := by
  obtain ⟨o, ho⟩ := toJson_isObj root
  have : ¬ ("$defs" = k) := fun h => hk h.symm
  simp [topJson, ho, Json.get?, JsonObj.get?, this]

lemma ref_ok_root (D : List (String × FragDesc)) (st : AdapterState)
    (hclean : ∀ nm ∈ defNames D, cleanName nm = true)
    (hcov : ∀ nm ∈ defNames D, ∃ mid, alistGet? st.propertiesCache nm = some mid) :
    ∀ nm, nm ∈ defNames D →
      ∃ n t, run n (.resolveReference (FragDesc.ref nm).toJson (.obj .nil)) st
        = (.ok (.ty t), st) := by
  intro nm hmem
  obtain ⟨mid, hmid⟩ := hcov nm hmem
  have hname : extractRefName ("#/$defs/" ++ nm) = nm :=
    extractRefName_clean nm (hclean nm hmem)
  refine ⟨2, .model mid, ?_⟩
  simp [run, FragDesc.toJson, hname, Json.hasKey, Json.get?, JsonObj.get?, hmid]

lemma resolveReference_congr (n : Nat) (s1 s2 dfs : Json) (st : AdapterState)
    (hrf : s1.get? "$ref" = s2.get? "$ref") :
    run n (.resolveReference s1 dfs) st = run n (.resolveReference s2 dfs) st := by
  cases n with
  | zero => rfl
  | succ n => simp only [run, hrf]

lemma hasKey_congr (s1 s2 : Json) (k : String) (h : s1.get? k = s2.get? k) :
    s1.hasKey k = s2.hasKey k := by
  rw [Json.hasKey, h, ← Json.hasKey]

lemma resolveFieldType_enum_congr (n : Nat) (s1 s2 dfs : Json) (st : AdapterState)
    (hrf : s1.get? "$ref" = s2.get? "$ref")
    (he : s1.get? "enum" = s2.get? "enum")
    (henum : s2.hasKey "enum" = true) :
    run n (.resolveFieldType s1 dfs) st = run n (.resolveFieldType s2 dfs) st := by
  cases n with
  | zero => rfl
  | succ n =>
    simp only [run, hasKey_congr s1 s2 "$ref" hrf, hasKey_congr s1 s2 "enum" he, he]
    by_cases h1 : s2.hasKey "$ref" = true
    · simp only [h1, if_true]
      exact resolveReference_congr n s1 s2 dfs st hrf
    · simp only [h1, henum, Bool.false_eq_true, if_false, if_true, reduceIte]

lemma setFieldDefault_congr (f : String) (r : JsonList) (t : PyType) (s1 s2 : Json)
    (hdef : s1.get? "default" = s2.get? "default") :
    setFieldDefault f r t s1 = setFieldDefault f r t s2 := by
  unfold setFieldDefault
  rw [hdef]

lemma fieldsLoop_self_congr (n : Nat) (tk : String) (req : JsonList) (dfs : Json)
    (st : AdapterState) (s1 s2 : Json)
    (hrf : s1.get? "$ref" = s2.get? "$ref")
    (he : s1.get? "enum" = s2.get? "enum")
    (hdef : s1.get? "default" = s2.get? "default")
    (hds : s1.get? "description" = s2.get? "description")
    (henum : s2.hasKey "enum" = true) :
    run n (.fieldsLoop (.cons tk s1 .nil) req dfs []) st
      = run n (.fieldsLoop (.cons tk s2 .nil) req dfs []) st := by
  cases n with
  | zero => rfl
  | succ n =>
    simp only [run, resolveFieldType_enum_congr n s1 s2 dfs st hrf he henum,
      setFieldDefault_congr tk req _ s1 s2 hdef, hds]

lemma extractFields_congr (n : Nat) (s1 s2 dfs : Json) (st : AdapterState)
    (hrf : s1.get? "$ref" = s2.get? "$ref")
    (he : s1.get? "enum" = s2.get? "enum")
    (hp : s1.get? "properties" = s2.get? "properties")
    (hr : s1.get? "required" = s2.get? "required")
    (ht : s1.get? "title" = s2.get? "title")
    (hdef : s1.get? "default" = s2.get? "default")
    (hds : s1.get? "description" = s2.get? "description") :
    run n (.extractFields s1 dfs) st = run n (.extractFields s2 dfs) st := by
  cases n with
  | zero => rfl
  | succ n =>
    have hkey := hasKey_congr s1 s2 "enum" he
    have hq : requiredOf s1 = requiredOf s2 := by
      unfold requiredOf
      rw [hr]
    have htk : enumTitleKey s1 = enumTitleKey s2 := by
      unfold enumTitleKey
      rw [ht]
    by_cases henum : s2.hasKey "enum" = true
    · have hkey1 : s1.hasKey "enum" = true := by rw [hkey]; exact henum
      simp only [run, getProperties, hkey1, henum, if_true, ht, hq, htk]
      cases htitle : s2.get? "title" with
      | none =>
        simp only []
        cases hreq : requiredOf s2 with
        | error e => simp only []
        | ok reqRaw =>
          simp only []
          exact fieldsLoop_self_congr n _ _ dfs st s1 s2 hrf he hdef hds henum
      | some j =>
        cases j with
        | str t =>
          simp only []
          cases hreq : requiredOf s2 with
          | error e => simp only []
          | ok reqRaw =>
            simp only []
            exact fieldsLoop_self_congr n _ _ dfs st s1 s2 hrf he hdef hds henum
        | null => simp only []
        | bool b => simp only []
        | num q => simp only []
        | arr l => simp only []
        | obj o => simp only []
    · have hkey1 : ¬ (s1.hasKey "enum" = true) := by rw [hkey]; exact henum
      simp only [run, getProperties, hkey1, henum, if_false, hp, hq, htk, hkey,
        Bool.false_eq_true, if_true, reduceIte, eq_self_iff_true]

/-- C7, counterexample to the claim as stated: `collidingTop` has an acyclic
(single-entry, reference-free) `$defs` table whose entry is named exactly like
the root model, `DynamicModel`.  The claim promises one record per `$defs`
entry plus one for the root (two records); the code builds the definition
record (id 0), then the root build hits the cache under the shared name and
returns that same record — only one record exists afterwards. -/
theorem c7_counterexample :
    run 10 (.createModelTop collidingTop "DynamicModel") initState
      = (.ok (.model 0),
         ⟨[("DynamicModel", 0)],
          [(0, ⟨"DynamicModel", [("a", ⟨.int, .ellipsis, .str ""⟩)]⟩)], 1⟩)
    ∧ (run 10 (.createModelTop collidingTop "DynamicModel") initState).2.models.length
        = 1 :=
  ⟨rfl, rfl⟩

lemma mem_of_alistGet? {α : Type} : ∀ (l : List (String × α)) (k : String) (v : α),
    alistGet? l k = some v → (k, v) ∈ l
  | [], k, v, h => by simp [alistGet?] at h
  | (k', v') :: rest, k, v, h => by
      by_cases hk : k' = k
      · subst hk
        have hv : v' = v := by simpa [alistGet?] using h
        subst hv
        exact List.mem_cons_self ..
      · simp only [alistGet?, hk, if_false] at h
        exact List.mem_cons_of_mem _ (mem_of_alistGet? rest k v h)

lemma get?_of_mem_defNames : ∀ (D : List (String × FragDesc)) (nm : String),
    nm ∈ defNames D → ∃ g, alistGet? D nm = some g
  | [], nm, h => by simp [defNames] at h
  | (k, f) :: rest, nm, h => by
      by_cases hk : k = nm
      · exact ⟨f, by simp [alistGet?, hk]⟩
      · have hmem : nm ∈ defNames rest := by
          simp only [defNames, List.map_cons, List.mem_cons] at h
          rcases h with h1 | h1
          · exact absurd h1.symm hk
          · exact h1
        obtain ⟨g, hg⟩ := get?_of_mem_defNames rest nm hmem
        exact ⟨g, by simp [alistGet?, hk, hg]⟩

lemma alistGet?_withIds_snoc (A : List String) (nm : String) (h : nm ∉ A) :
    alistGet? (withIds (A ++ [nm]) 0) nm = some A.length := by
  rw [withIds_append, alistGet?_append_right _ _ _ (alistGet?_withIds_of_not_mem _ _ _ h)]
  simp [withIds, alistGet?]

lemma goodL_append (D : List (String × FragDesc)) (L Lnew : List String)
    (M' : List (Nat × ModelDef)) (hnd : (L ++ Lnew).Nodup)
    (hL : ∀ x ∈ L, x ∈ defNames D) (hN : ∀ x ∈ Lnew, x ∈ defNames D)
    (hM : M'.length = (L ++ Lnew).length) : GoodL D (L ++ Lnew) M' :=
  ⟨hnd, fun x hx => (List.mem_append.mp hx).elim (hL x) (hN x), hM⟩

lemma builtState_cache (L : List String) (M : List (Nat × ModelDef)) :
    (builtState L M).propertiesCache = withIds L 0 := rfl

lemma builtState_models (L : List String) (M : List (Nat × ModelDef)) :
    (builtState L M).models = M := rfl

lemma builtState_nextId (L : List String) (M : List (Nat × ModelDef)) :
    (builtState L M).nextId = L.length := rfl

lemma nodup_snoc (l : List String) (a : String) (hnd : l.Nodup) (h : a ∉ l) :
    (l ++ [a]).Nodup :=
  (List.nodup_append ..).mpr
    ⟨hnd, List.nodup_singleton a, fun x hx hx' => by
      simp only [List.mem_singleton] at hx'
      subst hx'
      exact h hx⟩

lemma rankedBelow_of_mem_fragList :
    ∀ (rank : String → Nat) (R : Nat) (fl : FragList) (g : FragDesc),
      fl.rankedBelow rank R = true → g ∈ fl.toList → g.rankedBelow rank R = true
  | rank, R, .nil, g, _, h => by cases h
  | rank, R, .cons f fs, g, hs, h => by
      simp only [FragList.rankedBelow, Bool.and_eq_true] at hs
      rcases List.mem_cons.mp h with h1 | h1
      · subst h1; exact hs.1
      · exact rankedBelow_of_mem_fragList rank R fs g hs.2 h1

lemma rankedBelow_of_mem_propList :
    ∀ (rank : String → Nat) (R : Nat) (ps : PropList) (nm : String) (g : FragDesc),
      ps.rankedBelow rank R = true → (nm, g) ∈ ps.toList → g.rankedBelow rank R = true
  | rank, R, .nil, nm, g, _, h => by cases h
  | rank, R, .cons nm0 f fs, nm, g, hs, h => by
      simp only [PropList.rankedBelow, Bool.and_eq_true] at hs
      rcases List.mem_cons.mp h with h1 | h1
      · cases h1; exact hs.1
      · exact rankedBelow_of_mem_propList rank R fs nm g hs.2 h1

lemma resolvesTo_of_pure (D : List (String × FragDesc)) (rank : String → Nat) (R : Nat)
    (op : Json → Json → Op) (j : Json) (L : List String) (M : List (Nat × ModelDef))
    (hgood : GoodL D L M) (n : Nat) (t : PyType)
    (h : run n (op j (.obj (defsToJson D))) (builtState L M)
      = (.ok (.ty t), builtState L M)) :
    ResolvesTo D rank R op j L M := by
  refine ⟨n, t, [], M, ?_, ?_, by simp, ?_⟩
  · simpa using h
  · simpa using hgood.1
  · simpa using hgood.2.2

lemma unionOptions_gen (D : List (String × FragDesc)) (rank : String → Nat) (R : Nat) :
    ∀ (opts : JsonList),
    (∀ oj ∈ opts.toList, ∀ (L : List String) (M : List (Nat × ModelDef)),
      GoodL D L M → ResolvesTo D rank R Op.resolveUnionOption oj L M) →
    ∀ (L : List String) (M : List (Nat × ModelDef)), GoodL D L M →
    ∃ n ts Lnew M',
      run n (.unionOptions opts (.obj (defsToJson D))) (builtState L M)
        = (.ok (.tys ts), builtState (L ++ Lnew) M')
      ∧ ts.length = opts.toList.length
      ∧ (L ++ Lnew).Nodup ∧ (∀ x ∈ Lnew, x ∈ defNames D ∧ rank x < R)
      ∧ M'.length = (L ++ Lnew).length
  | .nil, _, L, M, hgood => by
      refine ⟨1, [], [], M, ?_, rfl, ?_, by simp, ?_⟩
      · simp [run]
      · simpa using hgood.1
      · simpa using hgood.2.2
  | .cons o os, hyp, L, M, hgood => by
      obtain ⟨n1, t, N1, M1, h1, hnd1, hin1, hlen1⟩ :=
        hyp o (by simp [JsonList.toList]) L M hgood
      have hgood1 : GoodL D (L ++ N1) M1 :=
        goodL_append D L N1 M1 hnd1 hgood.2.1 (fun x hx => (hin1 x hx).1) hlen1
      obtain ⟨n2, ts, N2, M2, h2, hlen, hnd2, hin2, hlen2⟩ :=
        unionOptions_gen D rank R os
          (fun oj hm L' M' hg => hyp oj (by simp [JsonList.toList, hm]) L' M' hg)
          (L ++ N1) M1 hgood1
      refine ⟨max n1 n2 + 1, t :: ts, N1 ++ N2, M2, ?_, ?_, ?_, ?_, ?_⟩
      · have h1' := run_mono n1 _ _ _ _ h1 (by simp) (max n1 n2) (le_max_left ..)
        have h2' := run_mono n2 _ _ _ _ h2 (by simp) (max n1 n2) (le_max_right ..)
        simp only [run, h1', h2']
        rw [List.append_assoc]
      · simp [JsonList.toList, hlen]
      · rwa [List.append_assoc] at hnd2
      · intro x hx
        rcases List.mem_append.mp hx with h | h
        · exact hin1 x h
        · exact hin2 x h
      · rwa [List.append_assoc] at hlen2

lemma frag_resolve_gen (D : List (String × FragDesc)) (rank : String → Nat) (R : Nat)
    (href : ∀ nm, rank nm < R → nm ∈ defNames D →
      ∀ (L : List String) (M : List (Nat × ModelDef)), GoodL D L M →
        ResolvesTo D rank R Op.resolveReference (FragDesc.ref nm).toJson L M) :
    ∀ (s : Nat) (f : FragDesc), f.fsize ≤ s →
      f.rankedBelow rank R = true → f.scopedTo (defNames D) = true →
      ∀ (L : List String) (M : List (Nat × ModelDef)), GoodL D L M →
        ResolvesTo D rank R Op.resolveFieldType f.toJson L M
        ∧ ResolvesTo D rank R Op.resolveBasicType f.toJson L M
        ∧ ResolvesTo D rank R Op.resolveUnionOption f.toJson L M := by
  intro s
  induction s with
  | zero =>
    intro f hsz
    exact absurd hsz (by cases f <;> simp [FragDesc.fsize])
  | succ s ihs =>
    intro f hsz hrb hscope L M hgood
    cases f with
    | basic t =>
      refine ⟨resolvesTo_of_pure D rank R _ _ L M hgood 2
                ((jsonTypeMappings (.str t)).getD .str) ?_,
              resolvesTo_of_pure D rank R _ _ L M hgood 1
                ((jsonTypeMappings (.str t)).getD .str) ?_, ?_⟩
      · simp [run, FragDesc.toJson, Json.hasKey, Json.get?, JsonObj.get?,
          isSimpleArray, isSimpleObject]
      · simp [run, FragDesc.toJson, Json.hasKey, Json.get?, JsonObj.get?,
          isSimpleArray, isSimpleObject]
      · by_cases ht : t = "null"
        · subst ht
          exact resolvesTo_of_pure D rank R _ _ L M hgood 1 .noneType (by
            simp [run, FragDesc.toJson, Json.hasKey, Json.get?, JsonObj.get?])
        · exact resolvesTo_of_pure D rank R _ _ L M hgood 2
            ((jsonTypeMappings (.str t)).getD .str) (by
              simp [run, FragDesc.toJson, Json.hasKey, Json.get?, JsonObj.get?,
                isSimpleArray, isSimpleObject, ht])
    | enumOf title vals =>
      refine ⟨resolvesTo_of_pure D rank R _ _ L M hgood 1
                (.literal (JsonList.ofList (dedup vals.toList))) ?_,
              resolvesTo_of_pure D rank R _ _ L M hgood 1 .str ?_,
              resolvesTo_of_pure D rank R _ _ L M hgood 2 .str ?_⟩
      · simp [run, FragDesc.toJson, Json.hasKey, Json.get?, JsonObj.get?]
      · simp [run, FragDesc.toJson, Json.hasKey, Json.get?, JsonObj.get?,
          isSimpleArray, isSimpleObject, jsonTypeMappings]
      · simp [run, FragDesc.toJson, Json.hasKey, Json.get?, JsonObj.get?,
          isSimpleArray, isSimpleObject, jsonTypeMappings]
    | arrayOf item =>
      have hsz1 : item.fsize ≤ s := by
        have h1 : item.fsize + 1 ≤ s + 1 := by simpa [FragDesc.fsize] using hsz
        omega
      have hrb1 : item.rankedBelow rank R = true := by
        simpa [FragDesc.rankedBelow] using hrb
      have hsub := ihs item hsz1 hrb1 (by simpa [FragDesc.scopedTo] using hscope) L M hgood
      obtain ⟨⟨nA, tA, N, M', hA, hnd, hin, hlen⟩, -, -⟩ := hsub
      refine ⟨⟨nA + 3, .listOf tA, N, M', ?_, hnd, hin, hlen⟩,
              ⟨nA + 2, .listOf tA, N, M', ?_, hnd, hin, hlen⟩,
              ⟨nA + 3, .listOf tA, N, M', ?_, hnd, hin, hlen⟩⟩
      · simp [run, FragDesc.toJson, Json.hasKey, Json.get?, JsonObj.get?,
          isSimpleArray, isSimpleObject, hA]
      · simp [run, FragDesc.toJson, Json.hasKey, Json.get?, JsonObj.get?,
          isSimpleArray, isSimpleObject, hA]
      · simp [run, FragDesc.toJson, Json.hasKey, Json.get?, JsonObj.get?,
          isSimpleArray, isSimpleObject, hA]
    | mapOf value =>
      have hsz1 : value.fsize ≤ s := by
        have h1 : value.fsize + 1 ≤ s + 1 := by simpa [FragDesc.fsize] using hsz
        omega
      have hrb1 : value.rankedBelow rank R = true := by
        simpa [FragDesc.rankedBelow] using hrb
      have hsub := ihs value hsz1 hrb1 (by simpa [FragDesc.scopedTo] using hscope) L M hgood
      obtain ⟨⟨nA, tA, N, M', hA, hnd, hin, hlen⟩, -, -⟩ := hsub
      refine ⟨⟨nA + 3, .dictOf tA, N, M', ?_, hnd, hin, hlen⟩,
              ⟨nA + 2, .dictOf tA, N, M', ?_, hnd, hin, hlen⟩,
              ⟨nA + 3, .dictOf tA, N, M', ?_, hnd, hin, hlen⟩⟩
      · simp [run, FragDesc.toJson, Json.hasKey, Json.get?, JsonObj.get?,
          isSimpleArray, isSimpleObject, hA]
      · simp [run, FragDesc.toJson, Json.hasKey, Json.get?, JsonObj.get?,
          isSimpleArray, isSimpleObject, hA]
      · simp [run, FragDesc.toJson, Json.hasKey, Json.get?, JsonObj.get?,
          isSimpleArray, isSimpleObject, hA]
    | unionOf o rest =>
      have hsz' : o.fsize + rest.fsize + 1 ≤ s + 1 := by simpa [FragDesc.fsize] using hsz
      have hscope' : o.scopedTo (defNames D) = true ∧ rest.scopedTo (defNames D) = true := by
        simpa [FragDesc.scopedTo, Bool.and_eq_true] using hscope
      have hrb' : o.rankedBelow rank R = true ∧ rest.rankedBelow rank R = true := by
        simpa [FragDesc.rankedBelow, Bool.and_eq_true] using hrb
      have hopts : ∀ oj ∈ (JsonList.cons o.toJson rest.toJsons).toList,
          ∀ (L' : List String) (M' : List (Nat × ModelDef)), GoodL D L' M' →
            ResolvesTo D rank R Op.resolveUnionOption oj L' M' := by
        intro oj hm L' M' hg
        simp only [JsonList.toList, List.mem_cons, toJsons_toList] at hm
        rcases hm with h1 | h1
        · subst h1
          exact (ihs o (by omega) hrb'.1 hscope'.1 L' M' hg).2.2
        · obtain ⟨g, hg2, rfl⟩ := List.mem_map.mp h1
          have h2 := fsize_le_of_mem_fragList rest g hg2
          exact (ihs g (by omega) (rankedBelow_of_mem_fragList rank R rest g hrb'.2 hg2)
            (scoped_of_mem_fragList (defNames D) rest g hscope'.2 hg2) L' M' hg).2.2
      obtain ⟨nU, ts, N, M', hU, hlen, hnd, hin, hlenM⟩ :=
        unionOptions_gen D rank R _ hopts L M hgood
      have hA : ∃ tr, run (nU + 2)
          (.resolveFieldType (FragDesc.unionOf o rest).toJson (.obj (defsToJson D)))
            (builtState L M)
          = (.ok (.ty tr), builtState (L ++ N) M') := by
        cases ts with
        | nil =>
          exfalso
          simp [JsonList.toList] at hlen
        | cons t0 ts' =>
          cases ts' with
          | nil =>
            exact ⟨t0, by
              simp [run, FragDesc.toJson, Json.hasKey, Json.get?, JsonObj.get?, hU]⟩
          | cons t1 ts2 =>
            exact ⟨mkUnion (t0 :: t1 :: ts2), by
              simp [run, FragDesc.toJson, Json.hasKey, Json.get?, JsonObj.get?, hU]⟩
      obtain ⟨tr, hAr⟩ := hA
      refine ⟨⟨nU + 2, tr, N, M', hAr, hnd, hin, hlenM⟩,
              resolvesTo_of_pure D rank R _ _ L M hgood 1 .str ?_,
              resolvesTo_of_pure D rank R _ _ L M hgood 2 .str ?_⟩
      · simp [run, FragDesc.toJson, Json.hasKey, Json.get?, JsonObj.get?,
          isSimpleArray, isSimpleObject, jsonTypeMappings]
      · simp [run, FragDesc.toJson, Json.hasKey, Json.get?, JsonObj.get?,
          isSimpleArray, isSimpleObject, jsonTypeMappings]
    | objectOf props req =>
      refine ⟨resolvesTo_of_pure D rank R _ _ L M hgood 2 .dictBare ?_,
              resolvesTo_of_pure D rank R _ _ L M hgood 1 .dictBare ?_,
              resolvesTo_of_pure D rank R _ _ L M hgood 2 .dictBare ?_⟩
      · simp [run, FragDesc.toJson, Json.hasKey, Json.get?, JsonObj.get?,
          isSimpleArray, isSimpleObject, jsonTypeMappings]
      · simp [run, FragDesc.toJson, Json.hasKey, Json.get?, JsonObj.get?,
          isSimpleArray, isSimpleObject, jsonTypeMappings]
      · simp [run, FragDesc.toJson, Json.hasKey, Json.get?, JsonObj.get?,
          isSimpleArray, isSimpleObject, jsonTypeMappings]
    | ref nm =>
      have hmem : nm ∈ defNames D := contains_mem (by simpa [FragDesc.scopedTo] using hscope)
      have hrk : rank nm < R := by
        have hd : decide (rank nm < R) = true := by simpa [FragDesc.rankedBelow] using hrb
        exact of_decide_eq_true hd
      obtain ⟨nR, tR, N, M', hR, hnd, hin, hlenM⟩ := href nm hrk hmem L M hgood
      simp only [FragDesc.toJson] at hR
      refine ⟨⟨nR + 1, tR, N, M', ?_, hnd, hin, hlenM⟩,
              resolvesTo_of_pure D rank R _ _ L M hgood 1 .str ?_,
              ⟨nR + 1, tR, N, M', ?_, hnd, hin, hlenM⟩⟩
      · simp [run, FragDesc.toJson, Json.hasKey, Json.get?, JsonObj.get?, hR]
      · simp [run, FragDesc.toJson, Json.hasKey, Json.get?, JsonObj.get?,
          isSimpleArray, isSimpleObject, jsonTypeMappings]
      · simp [run, FragDesc.toJson, Json.hasKey, Json.get?, JsonObj.get?, hR]

lemma fieldsLoop_gen (D : List (String × FragDesc)) (rank : String → Nat) (R : Nat) :
    ∀ (props : JsonObj),
    (∀ p ∈ props.toList, ∀ (L : List String) (M : List (Nat × ModelDef)),
      GoodL D L M → ResolvesTo D rank R Op.resolveFieldType p.2 L M) →
    ∀ (required : JsonList) (acc : List (String × FieldDef))
      (L : List String) (M : List (Nat × ModelDef)), GoodL D L M →
    ∃ n out Lnew M',
      run n (.fieldsLoop props required (.obj (defsToJson D)) acc) (builtState L M)
        = (.ok (.fields out), builtState (L ++ Lnew) M')
      ∧ (L ++ Lnew).Nodup ∧ (∀ x ∈ Lnew, x ∈ defNames D ∧ rank x < R)
      ∧ M'.length = (L ++ Lnew).length
  | .nil, _, required, acc, L, M, hgood => by
      refine ⟨1, acc, [], M, ?_, ?_, by simp, ?_⟩
      · simp [run]
      · simpa using hgood.1
      · simpa using hgood.2.2
  | .cons fn fsch rest, hyp, required, acc, L, M, hgood => by
      obtain ⟨n1, t, N1, M1, h1, hnd1, hin1, hlen1⟩ :=
        hyp (fn, fsch) (by simp [JsonObj.toList]) L M hgood
      have hgood1 : GoodL D (L ++ N1) M1 :=
        goodL_append D L N1 M1 hnd1 hgood.2.1 (fun x hx => (hin1 x hx).1) hlen1
      obtain ⟨n2, out, N2, M2, h2, hnd2, hin2, hlen2⟩ :=
        fieldsLoop_gen D rank R rest
          (fun p hm L' M' hg => hyp p (by simp [JsonObj.toList, hm]) L' M' hg)
          required
          (alistSet acc fn
            { type := (setFieldDefault fn required t fsch).2,
              default := (setFieldDefault fn required t fsch).1,
              description := (fsch.get? "description").getD (.str "") })
          (L ++ N1) M1 hgood1
      refine ⟨max n1 n2 + 1, out, N1 ++ N2, M2, ?_, ?_, ?_, ?_⟩
      · have h1' := run_mono n1 _ _ _ _ h1 (by simp) (max n1 n2) (le_max_left ..)
        have h2' := run_mono n2 _ _ _ _ h2 (by simp) (max n1 n2) (le_max_right ..)
        simp only [run, h1', h2']
        rw [List.append_assoc]
      · rwa [List.append_assoc] at hnd2
      · intro x hx
        rcases List.mem_append.mp hx with h | h
        · exact hin1 x h
        · exact hin2 x h
      · rwa [List.append_assoc] at hlen2

lemma extractFields_gen (D : List (String × FragDesc)) (rank : String → Nat) (R : Nat)
    (href : ∀ nm, rank nm < R → nm ∈ defNames D →
      ∀ (L : List String) (M : List (Nat × ModelDef)), GoodL D L M →
        ResolvesTo D rank R Op.resolveReference (FragDesc.ref nm).toJson L M)
    (g : FragDesc) (hrb : g.rankedBelow rank R = true)
    (hscope : g.scopedTo (defNames D) = true)
    (L : List String) (M : List (Nat × ModelDef)) (hgood : GoodL D L M) :
    ∃ n fs Lnew M',
      run n (.extractFields g.toJson (.obj (defsToJson D))) (builtState L M)
        = (.ok (.fields fs), builtState (L ++ Lnew) M')
      ∧ (L ++ Lnew).Nodup ∧ (∀ x ∈ Lnew, x ∈ defNames D ∧ rank x < R)
      ∧ M'.length = (L ++ Lnew).length := by
  cases g with
  | objectOf props req =>
    have hprops : ∀ p ∈ (props.toJson).toList,
        ∀ (L' : List String) (M' : List (Nat × ModelDef)), GoodL D L' M' →
          ResolvesTo D rank R Op.resolveFieldType p.2 L' M' := by
      intro p hm L' M' hg
      rw [propToJson_toList] at hm
      obtain ⟨⟨nm0, g0⟩, hg0, rfl⟩ := List.mem_map.mp hm
      have hsc : g0.scopedTo (defNames D) = true :=
        scoped_of_mem_propList (defNames D) props nm0 g0
          (by simpa [FragDesc.scopedTo] using hscope) hg0
      have hrb0 : g0.rankedBelow rank R = true :=
        rankedBelow_of_mem_propList rank R props nm0 g0
          (by simpa [FragDesc.rankedBelow] using hrb) hg0
      exact (frag_resolve_gen D rank R href g0.fsize g0 le_rfl hrb0 hsc L' M' hg).1
    obtain ⟨n1, out, N, M', h1, hnd, hin, hlenM⟩ :=
      fieldsLoop_gen D rank R props.toJson hprops req [] L M hgood
    refine ⟨n1 + 1, out, N, M', ?_, hnd, hin, hlenM⟩
    simp [run, FragDesc.toJson, getProperties, requiredOf, Json.hasKey,
      Json.get?, JsonObj.get?, h1]
  | enumOf title vals =>
    refine ⟨3, [(title,
      { type := .literal (JsonList.ofList (dedup vals.toList)), default := .ellipsis,
        description := .str "" })], [], M, ?_, ?_, by simp, ?_⟩
    · simp [run, FragDesc.toJson, getProperties, requiredOf, enumTitleKey,
        Json.hasKey, Json.get?, JsonObj.get?, setFieldDefault, JsonList.containsJ,
        alistSet]
    · simpa using hgood.1
    · simpa using hgood.2.2
  | basic t =>
    refine ⟨2, [], [], M, ?_, ?_, by simp, ?_⟩
    · simp [run, FragDesc.toJson, getProperties, requiredOf, Json.hasKey,
        Json.get?, JsonObj.get?]
    · simpa using hgood.1
    · simpa using hgood.2.2
  | arrayOf item =>
    refine ⟨2, [], [], M, ?_, ?_, by simp, ?_⟩
    · simp [run, FragDesc.toJson, getProperties, requiredOf, Json.hasKey,
        Json.get?, JsonObj.get?]
    · simpa using hgood.1
    · simpa using hgood.2.2
  | mapOf value =>
    refine ⟨2, [], [], M, ?_, ?_, by simp, ?_⟩
    · simp [run, FragDesc.toJson, getProperties, requiredOf, Json.hasKey,
        Json.get?, JsonObj.get?]
    · simpa using hgood.1
    · simpa using hgood.2.2
  | unionOf o rest =>
    refine ⟨2, [], [], M, ?_, ?_, by simp, ?_⟩
    · simp [run, FragDesc.toJson, getProperties, requiredOf, Json.hasKey,
        Json.get?, JsonObj.get?]
    · simpa using hgood.1
    · simpa using hgood.2.2
  | ref nm =>
    refine ⟨2, [], [], M, ?_, ?_, by simp, ?_⟩
    · simp [run, FragDesc.toJson, getProperties, requiredOf, Json.hasKey,
        Json.get?, JsonObj.get?]
    · simpa using hgood.1
    · simpa using hgood.2.2

lemma ref_build_record (D : List (String × FragDesc)) (rank : String → Nat) (R : Nat)
    (nm : String) (g : FragDesc) (hrk : rank nm < R)
    (hname : extractRefName ("#/$defs/" ++ nm) = nm)
    (hdj : (defsToJson D).get? nm = some g.toJson)
    (hany : g.toJson.hasKey "anyOf" = false)
    (harr : isSimpleArray g.toJson = false)
    (hobj : isSimpleObject g.toJson = false)
    (hmemD : nm ∈ defNames D)
    (hext : ∀ (L : List String) (M : List (Nat × ModelDef)), GoodL D L M →
      ∃ n fs Lnew M',
        run n (.extractFields g.toJson (.obj (defsToJson D))) (builtState L M)
          = (.ok (.fields fs), builtState (L ++ Lnew) M')
        ∧ (L ++ Lnew).Nodup ∧ (∀ x ∈ Lnew, x ∈ defNames D ∧ rank x < rank nm)
        ∧ M'.length = (L ++ Lnew).length)
    (L : List String) (M : List (Nat × ModelDef)) (hgood : GoodL D L M) :
    ResolvesTo D rank R Op.resolveReference (FragDesc.ref nm).toJson L M := by
  have hrefGet : ((FragDesc.ref nm).toJson).get? "$ref" = some (.str ("#/$defs/" ++ nm)) := by
    simp [FragDesc.toJson, Json.get?, JsonObj.get?]
  have hdjJ : (Json.obj (defsToJson D)).get? nm = some g.toJson := by
    simpa [Json.get?] using hdj
  by_cases hmemL : nm ∈ L
  · obtain ⟨mid, hmid⟩ := alistGet?_withIds_of_mem L 0 nm hmemL
    refine ⟨2, .model mid, [], M, ?_, by simpa using hgood.1, by simp, by simpa using hgood.2.2⟩
    simp only [run, hrefGet, hname, hdjJ, hany, harr, hobj, Bool.false_eq_true, if_false,
      builtState_cache, hmid, List.append_nil]
  · obtain ⟨nE, fs, N, M2, hE, hndE, hinE, hlenE⟩ := hext L M hgood
    have hnmN : nm ∉ N := fun hx => absurd (hinE nm hx).2 (lt_irrefl _)
    have hnmLN : nm ∉ L ++ N := by
      intro hx
      rcases List.mem_append.mp hx with h | h
      · exact hmemL h
      · exact hnmN h
    have hmiss : alistGet? (withIds L 0) nm = none :=
      alistGet?_withIds_of_not_mem L 0 nm hmemL
    have hcache : alistSet (withIds (L ++ N) 0) nm (L ++ N).length
        = withIds ((L ++ N) ++ [nm]) 0 := by
      rw [alistSet_append_of_none _ _ _ (alistGet?_withIds_of_not_mem _ 0 nm hnmLN)]
      simp [withIds_append, withIds]
    obtain ⟨nC, hcm⟩ : ∃ nC,
        run nC (.createModel g.toJson nm (.obj (defsToJson D))) (builtState L M)
        = (.ok (.model (L ++ N).length),
           ⟨withIds ((L ++ N) ++ [nm]) 0, M2 ++ [((L ++ N).length, ⟨nm, fs⟩)],
             (L ++ N).length + 1⟩) :=
      ⟨nE + 1, by
        simp only [run, builtState_cache, hmiss, hE, builtState_nextId, builtState_models,
          hcache]⟩
    refine ⟨nC + 1, .model (L ++ N).length, N ++ [nm],
      M2 ++ [((L ++ N).length, ⟨nm, fs⟩)], ?_, ?_, ?_, ?_⟩
    · have hst : builtState (L ++ (N ++ [nm])) (M2 ++ [((L ++ N).length, ⟨nm, fs⟩)])
          = builtState ((L ++ N) ++ [nm]) (M2 ++ [((L ++ N).length, ⟨nm, fs⟩)]) := by
        rw [List.append_assoc]
      rw [hst]
      simp only [run, hrefGet, hname, hdjJ, hany, harr, hobj, Bool.false_eq_true, if_false,
        builtState_cache, hmiss, hcm]
      simp [builtState]
      omega
    · rw [← List.append_assoc]
      exact nodup_snoc (L ++ N) nm hndE hnmLN
    · intro x hx
      rcases List.mem_append.mp hx with h | h
      · exact ⟨(hinE x h).1, lt_trans (hinE x h).2 hrk⟩
      · simp only [List.mem_singleton] at h
        subst h
        exact ⟨hmemD, hrk⟩
    · have h1 : M2.length = L.length + N.length := by simpa using hlenE
      simp [h1]
      omega

lemma ref_resolve_gen (D : List (String × FragDesc)) (rank : String → Nat)
    (hacy : acyclicBy rank D = true)
    (hscopeD : allScoped D = true)
    (hclean : ∀ nm ∈ defNames D, cleanName nm = true) :
    ∀ (R : Nat) (nm : String), rank nm < R → nm ∈ defNames D →
      ∀ (L : List String) (M : List (Nat × ModelDef)), GoodL D L M →
        ResolvesTo D rank R Op.resolveReference (FragDesc.ref nm).toJson L M := by
  intro R
  induction R using Nat.strong_induction_on with
  | _ R ihR =>
    intro nm hrk hmem L M hgood
    obtain ⟨g, hget⟩ := get?_of_mem_defNames D nm hmem
    have hpair : (nm, g) ∈ D := mem_of_alistGet? D nm g hget
    have hrb : g.rankedBelow rank (rank nm) = true := by
      have h := List.all_eq_true.mp
        (show D.all (fun p => FragDesc.rankedBelow rank (rank p.1) p.2) = true from hacy)
        (nm, g) hpair
      simpa using h
    have hscope : g.scopedTo (defNames D) = true := by
      have h := List.all_eq_true.mp
        (show D.all (fun p => FragDesc.scopedTo (defNames D) p.2) = true from hscopeD)
        (nm, g) hpair
      simpa using h
    have hname : extractRefName ("#/$defs/" ++ nm) = nm :=
      extractRefName_clean nm (hclean nm hmem)
    have hdj' : (defsToJson D).get? nm = some g.toJson := by
      simp [defsToJson_get?, hget]
    have hrefm : ∀ nm', rank nm' < rank nm → nm' ∈ defNames D →
        ∀ (L' : List String) (M' : List (Nat × ModelDef)), GoodL D L' M' →
          ResolvesTo D rank (rank nm) Op.resolveReference (FragDesc.ref nm').toJson L' M' :=
      fun nm' h' hm' L' M' hg => ihR (rank nm) hrk nm' h' hm' L' M' hg
    cases g with
    | unionOf o rest =>
      have hfrag := (frag_resolve_gen D rank (rank nm) hrefm
        (FragDesc.unionOf o rest).fsize _ le_rfl hrb hscope L M hgood).1
      obtain ⟨nA, tA, N, M', hA, hnd, hin, hlenM⟩ := hfrag
      match nA, hA with
      | nA + 1, hA =>
        simp only [run] at hA
        simp [FragDesc.toJson, Json.hasKey, Json.get?, JsonObj.get?] at hA
        refine ⟨nA + 1, tA, N, M',
          ?_, hnd, fun x hx => ⟨(hin x hx).1, lt_trans (hin x hx).2 hrk⟩, hlenM⟩
        simp [run, FragDesc.toJson, hname, hdj', Json.hasKey, Json.get?,
          JsonObj.get?, hA]
    | arrayOf item =>
      have hfrag := (frag_resolve_gen D rank (rank nm) hrefm
        (FragDesc.arrayOf item).fsize _ le_rfl hrb hscope L M hgood).1
      obtain ⟨nA, tA, N, M', hA, hnd, hin, hlenM⟩ := hfrag
      match nA, hA with
      | nA + 2, hA =>
        simp only [run] at hA
        simp [FragDesc.toJson, Json.hasKey, Json.get?, JsonObj.get?,
          isSimpleArray, isSimpleObject] at hA
        refine ⟨nA + 1, tA, N, M',
          ?_, hnd, fun x hx => ⟨(hin x hx).1, lt_trans (hin x hx).2 hrk⟩, hlenM⟩
        simp [run, FragDesc.toJson, hname, hdj', Json.hasKey, Json.get?,
          JsonObj.get?, isSimpleArray, isSimpleObject, hA]
    | mapOf value =>
      have hfrag := (frag_resolve_gen D rank (rank nm) hrefm
        (FragDesc.mapOf value).fsize _ le_rfl hrb hscope L M hgood).1
      obtain ⟨nA, tA, N, M', hA, hnd, hin, hlenM⟩ := hfrag
      match nA, hA with
      | nA + 2, hA =>
        simp only [run] at hA
        simp [FragDesc.toJson, Json.hasKey, Json.get?, JsonObj.get?,
          isSimpleArray, isSimpleObject] at hA
        refine ⟨nA + 1, tA, N, M',
          ?_, hnd, fun x hx => ⟨(hin x hx).1, lt_trans (hin x hx).2 hrk⟩, hlenM⟩
        simp [run, FragDesc.toJson, hname, hdj', Json.hasKey, Json.get?,
          JsonObj.get?, isSimpleArray, isSimpleObject, hA]
    | basic t =>
      refine ref_build_record D rank R nm (FragDesc.basic t) hrk hname hdj' ?_ ?_ ?_ hmem
        (fun L' M' hg => extractFields_gen D rank (rank nm) hrefm
          (FragDesc.basic t) hrb hscope L' M' hg) L M hgood
      · simp [FragDesc.toJson, Json.hasKey, Json.get?, JsonObj.get?]
      · simp [FragDesc.toJson, isSimpleArray, Json.hasKey, Json.get?, JsonObj.get?]
      · simp [FragDesc.toJson, isSimpleObject, Json.hasKey, Json.get?, JsonObj.get?]
    | enumOf title vals =>
      refine ref_build_record D rank R nm (FragDesc.enumOf title vals) hrk hname hdj' ?_ ?_ ?_ hmem
        (fun L' M' hg => extractFields_gen D rank (rank nm) hrefm
          (FragDesc.enumOf title vals) hrb hscope L' M' hg) L M hgood
      · simp [FragDesc.toJson, Json.hasKey, Json.get?, JsonObj.get?]
      · simp [FragDesc.toJson, isSimpleArray, Json.hasKey, Json.get?, JsonObj.get?]
      · simp [FragDesc.toJson, isSimpleObject, Json.hasKey, Json.get?, JsonObj.get?]
    | objectOf props req =>
      refine ref_build_record D rank R nm (FragDesc.objectOf props req) hrk hname hdj' ?_ ?_ ?_ hmem
        (fun L' M' hg => extractFields_gen D rank (rank nm) hrefm
          (FragDesc.objectOf props req) hrb hscope L' M' hg) L M hgood
      · simp [FragDesc.toJson, Json.hasKey, Json.get?, JsonObj.get?]
      · simp [FragDesc.toJson, isSimpleArray, Json.hasKey, Json.get?, JsonObj.get?]
      · simp [FragDesc.toJson, isSimpleObject, Json.hasKey, Json.get?, JsonObj.get?]
    | ref nm2 =>
      refine ref_build_record D rank R nm (FragDesc.ref nm2) hrk hname hdj' ?_ ?_ ?_ hmem
        (fun L' M' hg => extractFields_gen D rank (rank nm) hrefm
          (FragDesc.ref nm2) hrb hscope L' M' hg) L M hgood
      · simp [FragDesc.toJson, Json.hasKey, Json.get?, JsonObj.get?]
      · simp [FragDesc.toJson, isSimpleArray, Json.hasKey, Json.get?, JsonObj.get?]
      · simp [FragDesc.toJson, isSimpleObject, Json.hasKey, Json.get?, JsonObj.get?]

lemma defsLoop_gen (D : List (String × FragDesc)) (rank : String → Nat)
    (hacy : acyclicBy rank D = true)
    (hscopeD : allScoped D = true)
    (hclean : ∀ nm ∈ defNames D, cleanName nm = true) :
    ∀ (D2 D1 : List (String × FragDesc)), D = D1 ++ D2 →
      ∀ (L : List String) (M : List (Nat × ModelDef)), GoodL D L M →
        (∀ x ∈ defNames D1, x ∈ L) →
      ∃ n Lnew M',
        run n (.defsLoop (defsToJson D2) (.obj (defsToJson D))) (builtState L M)
          = (.ok .unit, builtState (L ++ Lnew) M')
        ∧ (L ++ Lnew).Nodup ∧ (∀ x ∈ Lnew, x ∈ defNames D)
        ∧ (∀ x ∈ defNames D, x ∈ L ++ Lnew)
        ∧ M'.length = (L ++ Lnew).length := by
  intro D2
  induction D2 with
  | nil =>
    intro D1 hD L M hgood hcov
    refine ⟨1, [], M, ?_, by simpa using hgood.1, by simp, ?_, by simpa using hgood.2.2⟩
    · simp [run, defsToJson]
    · intro x hx
      have hx1 : x ∈ defNames D1 := by
        rw [hD, List.append_nil] at hx
        exact hx
      simpa using hcov x hx1
  | cons p rest ihD2 =>
    obtain ⟨nm, g⟩ := p
    intro D1 hD L M hgood hcov
    have hpair : (nm, g) ∈ D := by
      rw [hD]
      simp
    have hmemD : nm ∈ defNames D := by
      rw [hD]
      simp [defNames]
    have hrb : g.rankedBelow rank (rank nm) = true := by
      have h := List.all_eq_true.mp
        (show D.all (fun q => FragDesc.rankedBelow rank (rank q.1) q.2) = true from hacy)
        (nm, g) hpair
      simpa using h
    have hscope : g.scopedTo (defNames D) = true := by
      have h := List.all_eq_true.mp
        (show D.all (fun q => FragDesc.scopedTo (defNames D) q.2) = true from hscopeD)
        (nm, g) hpair
      simpa using h
    have hD' : D = (D1 ++ [(nm, g)]) ++ rest := by
      rw [hD, List.append_assoc]
      rfl
    by_cases hmemL : nm ∈ L
    · obtain ⟨mid, hmid⟩ := alistGet?_withIds_of_mem L 0 nm hmemL
      have hnoop : alistSet (withIds L 0) nm mid = withIds L 0 :=
        alistSet_self_of_get _ _ _ hmid
      obtain ⟨nC, hcm⟩ : ∃ nC,
          run nC (.createModel g.toJson nm (.obj (defsToJson D))) (builtState L M)
            = (.ok (.model mid), builtState L M) :=
        ⟨1, by simp [run, builtState_cache, hmid]⟩
      obtain ⟨nR, N, M', hR, hnd, hin, hcovf, hlenM⟩ := ihD2 (D1 ++ [(nm, g)]) hD' L M hgood
        (by
          intro x hx
          simp only [defNames, List.map_append, List.mem_append] at hx
          rcases hx with h | h
          · exact hcov x h
          · simp only [List.map_cons, List.map_nil, List.mem_singleton] at h
            subst h
            exact hmemL)
      refine ⟨max nC nR + 1, N, M', ?_, hnd, hin, hcovf, hlenM⟩
      have hcm' := run_mono nC _ _ _ _ hcm (by simp) (max nC nR) (le_max_left ..)
      have hR' := run_mono nR _ _ _ _ hR (by simp) (max nC nR) (le_max_right ..)
      simp only [run, defsToJson, hcm']
      have hupd : ({ builtState L M with
          propertiesCache := alistSet (builtState L M).propertiesCache nm mid } : AdapterState)
          = builtState L M := by
        simp [builtState, hnoop]
      rw [hupd, hR']
    · have hmiss : alistGet? (withIds L 0) nm = none :=
        alistGet?_withIds_of_not_mem L 0 nm hmemL
      obtain ⟨nE, fs, N, M2, hE, hndE, hinE, hlenE⟩ :=
        extractFields_gen D rank (rank nm)
          (fun nm' h' hm' L' M' hg =>
            ref_resolve_gen D rank hacy hscopeD hclean (rank nm) nm' h' hm' L' M' hg)
          g hrb hscope L M hgood
      have hnmN : nm ∉ N := fun hx => absurd (hinE nm hx).2 (lt_irrefl _)
      have hnmLN : nm ∉ L ++ N := by
        intro hx
        rcases List.mem_append.mp hx with h | h
        · exact hmemL h
        · exact hnmN h
      have hcache : alistSet (withIds (L ++ N) 0) nm (L ++ N).length
          = withIds ((L ++ N) ++ [nm]) 0 := by
        rw [alistSet_append_of_none _ _ _ (alistGet?_withIds_of_not_mem _ 0 nm hnmLN)]
        simp [withIds_append, withIds]
      have hstEq : (⟨withIds ((L ++ N) ++ [nm]) 0,
            M2 ++ [((L ++ N).length, ⟨nm, fs⟩)], (L ++ N).length + 1⟩ : AdapterState)
          = builtState ((L ++ N) ++ [nm]) (M2 ++ [((L ++ N).length, ⟨nm, fs⟩)]) := by
        simp [builtState]
        omega
      obtain ⟨nC, hcm⟩ : ∃ nC,
          run nC (.createModel g.toJson nm (.obj (defsToJson D))) (builtState L M)
            = (.ok (.model (L ++ N).length),
               builtState ((L ++ N) ++ [nm]) (M2 ++ [((L ++ N).length, ⟨nm, fs⟩)])) :=
        ⟨nE + 1, by
          rw [← hstEq]
          simp only [run, builtState_cache, hmiss, hE, builtState_nextId,
            builtState_models, hcache]⟩
      have hgoodLN : GoodL D ((L ++ N) ++ [nm])
          (M2 ++ [((L ++ N).length, ⟨nm, fs⟩)]) := by
        refine ⟨nodup_snoc (L ++ N) nm hndE hnmLN, ?_, by simp [hlenE]; omega⟩
        intro x hx
        rcases List.mem_append.mp hx with h | h
        · rcases List.mem_append.mp h with h1 | h1
          · exact hgood.2.1 x h1
          · exact (hinE x h1).1
        · simp only [List.mem_singleton] at h
          subst h
          exact hmemD
      obtain ⟨nR, N2, M3, hR, hnd2, hin2, hcov2, hlen2⟩ :=
        ihD2 (D1 ++ [(nm, g)]) hD' ((L ++ N) ++ [nm])
          (M2 ++ [((L ++ N).length, ⟨nm, fs⟩)]) hgoodLN
          (by
            intro x hx
            simp only [defNames, List.map_append, List.mem_append] at hx
            rcases hx with h | h
            · exact List.mem_append.mpr (Or.inl (List.mem_append.mpr (Or.inl (hcov x h))))
            · simp only [List.map_cons, List.map_nil, List.mem_singleton] at h
              subst h
              exact List.mem_append.mpr (Or.inr (by simp)))
      have hreget : alistGet? (withIds ((L ++ N) ++ [nm]) 0) nm = some (L ++ N).length :=
        alistGet?_withIds_snoc (L ++ N) nm hnmLN
      have hnoop : alistSet (withIds ((L ++ N) ++ [nm]) 0) nm (L ++ N).length
          = withIds ((L ++ N) ++ [nm]) 0 :=
        alistSet_self_of_get _ _ _ hreget
      refine ⟨max nC nR + 1, (N ++ [nm]) ++ N2, M3, ?_, ?_, ?_, ?_, ?_⟩
      · have hcm' := run_mono nC _ _ _ _ hcm (by simp) (max nC nR) (le_max_left ..)
        have hR' := run_mono nR _ _ _ _ hR (by simp) (max nC nR) (le_max_right ..)
        simp only [run, defsToJson, hcm']
        have hupd : ({ builtState ((L ++ N) ++ [nm]) (M2 ++ [((L ++ N).length, ⟨nm, fs⟩)]) with
            propertiesCache :=
              alistSet (builtState ((L ++ N) ++ [nm])
                (M2 ++ [((L ++ N).length, ⟨nm, fs⟩)])).propertiesCache nm
                (L ++ N).length } : AdapterState)
            = builtState ((L ++ N) ++ [nm]) (M2 ++ [((L ++ N).length, ⟨nm, fs⟩)]) := by
          simp only [builtState_cache, hnoop, builtState_models, builtState_nextId]
          rfl
        rw [hupd, hR']
        simp [List.append_assoc]
      · simpa [List.append_assoc] using hnd2
      · intro x hx
        rcases List.mem_append.mp hx with h | h
        · rcases List.mem_append.mp h with h1 | h1
          · exact (hinE x h1).1
          · simp only [List.mem_singleton] at h1
            subst h1
            exact hmemD
        · exact hin2 x h
      · intro x hx
        have h2 := hcov2 x hx
        simpa [List.append_assoc] using h2
      · simpa [List.append_assoc] using hlen2

/-- C7 (amended): for every schema whose `$defs` reference graph is acyclic —
witnessed by a rank function that strictly decreases along every `$ref`, with
no constraint on declaration order, so forward references are allowed — with
separator-free pairwise-distinct definition names each referring only to
defined names, a root fragment scoped to those names, and a root model name
distinct from every definition name, the top-level entry point terminates and
produces exactly one record per `$defs` entry plus one for the root: the
definitions receive ids `0 .. D.length - 1` in the order the depth-first
on-demand construction completes them (a permutation of the declared names),
and the root record receives id `D.length`, so every definition record is
built before the root record and the final model list has `D.length + 1`
entries.  The freshness hypothesis on the model name is necessary: see the
counterexample, where a name collision makes the root build return the
cached definition record instead of a new one. -/
theorem c7_acyclic_schemas_build_all (D : List (String × FragDesc)) (rank : String → Nat)
    (root : FragDesc) (modelName : String)
    (hacy : acyclicBy rank D = true)
    (hscopeD : allScoped D = true)
    (hclean : ∀ nm ∈ defNames D, cleanName nm = true)
    (hnodup : (defNames D).Nodup)
    (hroot : root.scopedTo (defNames D) = true)
    (hnew : modelName ∉ defNames D) :
    ∃ n L M, L.Perm (defNames D)
      ∧ run n (.createModelTop (topJson D root) modelName) initState
          = (.ok (.model D.length), builtState (L ++ [modelName]) M)
      ∧ M.length = D.length + 1 := by
  obtain ⟨nL, Lf, Mf, hL, hndf, hinf, hcovf, hlenf⟩ :=
    defsLoop_gen D rank hacy hscopeD hclean D [] rfl [] []
      ⟨List.nodup_nil, by simp, rfl⟩ (by simp [defNames])
  simp only [List.nil_append] at hL hndf hcovf hlenf
  have hsub : Lf ⊆ defNames D := fun x hx => hinf x hx
  have hsup : defNames D ⊆ Lf := fun x hx => hcovf x hx
  have hperm : Lf.Perm (defNames D) :=
    (List.subperm_of_subset hndf hsub).antisymm (List.subperm_of_subset hnodup hsup)
  have hlenD : Lf.length = D.length := by
    have h := hperm.length_eq
    simpa [defNames] using h
  have hcovN : ∀ nm ∈ defNames D,
      ∃ mid, alistGet? (builtState Lf Mf).propertiesCache nm = some mid :=
    fun nm hm => alistGet?_withIds_of_mem Lf 0 nm (hsup hm)
  have hrefRoot := ref_ok_root D (builtState Lf Mf) hclean hcovN
  obtain ⟨nE, fs, hE⟩ :=
    extractFields_ok (.obj .nil) (builtState Lf Mf) (defNames D) hrefRoot root hroot
  have hEtop : run nE (.extractFields (topJson D root) (.obj .nil)) (builtState Lf Mf)
      = (.ok (.fields fs), builtState Lf Mf) := by
    rw [extractFields_congr nE (topJson D root) root.toJson (.obj .nil) (builtState Lf Mf)
      (topJson_get?_ne D root "$ref" (by decide))
      (topJson_get?_ne D root "enum" (by decide))
      (topJson_get?_ne D root "properties" (by decide))
      (topJson_get?_ne D root "required" (by decide))
      (topJson_get?_ne D root "title" (by decide))
      (topJson_get?_ne D root "default" (by decide))
      (topJson_get?_ne D root "description" (by decide))]
    exact hE
  have hnewf : modelName ∉ Lf := fun hx => hnew (hsub hx)
  have hmissTop : alistGet? (withIds Lf 0) modelName = none :=
    alistGet?_withIds_of_not_mem Lf 0 modelName hnewf
  have hcacheEq : alistSet (withIds Lf 0) modelName Lf.length
      = withIds (Lf ++ [modelName]) 0 := by
    rw [alistSet_append_of_none _ _ _ hmissTop]
    simp [withIds_append, withIds]
  have hstEq : (⟨withIds (Lf ++ [modelName]) 0,
        Mf ++ [(Lf.length, ⟨modelName, fs⟩)], Lf.length + 1⟩ : AdapterState)
      = builtState (Lf ++ [modelName]) (Mf ++ [(Lf.length, ⟨modelName, fs⟩)]) := by
    simp [builtState]
  obtain ⟨nC, hcm⟩ : ∃ nC,
      run nC (.createModel (topJson D root) modelName (.obj .nil)) (builtState Lf Mf)
        = (.ok (.model Lf.length),
           builtState (Lf ++ [modelName]) (Mf ++ [(Lf.length, ⟨modelName, fs⟩)])) :=
    ⟨nE + 1, by
      rw [← hstEq]
      simp only [run, builtState_cache, hmissTop, hEtop, builtState_nextId,
        builtState_models, hcacheEq]⟩
  refine ⟨max nL nC + 1, Lf, Mf ++ [(Lf.length, ⟨modelName, fs⟩)], hperm, ?_, by
    simp [hlenf, hlenD]⟩
  have hL' := run_mono nL _ _ _ _ hL (by simp) (max nL nC) (le_max_left ..)
  have hcm' := run_mono nC _ _ _ _ hcm (by simp) (max nL nC) (le_max_right ..)
  have hL2 : run (max nL nC) (.defsLoop (defsToJson D) (.obj (defsToJson D)))
      initState = (.ok .unit, builtState Lf Mf) := hL'
  rw [← hlenD]
  simp only [run, topJson_get?_defs, Option.getD_some, hL2, hcm']

/-- Witness for the amended C7 theorem: the four-definition table `exD2`
contains a FORWARD reference (`B`, declared first, refers to `A`, declared
second), so it is acyclic but not topologically ordered; built under the
fresh root name `Root` it yields five records with the root record last. -/
theorem c7_acyclic_schemas_build_all_witness :
    (acyclicBy exRank exD2 = true ∧ allScoped exD2 = true
      ∧ (∀ nm ∈ defNames exD2, cleanName nm = true)
      ∧ (defNames exD2).Nodup
      ∧ exRoot2.scopedTo (defNames exD2) = true
      ∧ "Root" ∉ defNames exD2)
    ∧ ∃ n L M, L.Perm (defNames exD2)
        ∧ run n (.createModelTop (topJson exD2 exRoot2) "Root") initState
            = (.ok (.model exD2.length), builtState (L ++ ["Root"]) M)
        ∧ M.length = exD2.length + 1 :=
  ⟨⟨by decide, by decide, by decide, by decide, by decide, by decide⟩,
    c7_acyclic_schemas_build_all exD2 exRank exRoot2 "Root" (by decide) (by decide) (by decide)
      (by decide) (by decide) (by decide)⟩
